import Mathlib

/-!
Verification of the combinatorial-pooling core (binary_code_utilities.py and
graph_clique_find.py) against its natural-language specification.

Shallow embedding conventions:
* A Python Binary_codeword is a fixed-length bit vector; it is embedded as a
  `List Bool` (MSB first, exactly the order of the Python bit-string).
* Python sets of codewords are embedded as `List`s whose iteration order is
  arbitrary; theorems quantify over all orders.  Set insertion is
  `setInsert` (no duplicates are ever created), set removal is `List.filter`.
* Fallible Python code (raising an exception) is embedded with `Option` /
  `Except`: `none` / `.error` means the call raised.
* The object graph of graph_clique_find.py (Node objects with mutable
  neighbor sets) is embedded as a `Graph` record carrying the current node
  list and, for every node value, its current neighbor list; `degree` is the
  neighbor-list length, which the Python code keeps synchronized with the
  neighbor set at every mutation.
-/

/-! ## Codewords (class Binary_codeword) -/

/-- A Binary_codeword: an ordered, fixed-length sequence of bits, MSB first. -/
abbrev Codeword := List Bool

/-- Binary_codeword.weight: the number of 1 bits (`self.codeword.count(1)`). -/
def weight (w : Codeword) : Nat := w.count true

/-- Binary_codeword.__xor__, which delegates to the bitstring package's
`^`; the bitstring package raises on operands of unequal length, so the
result is `none` exactly in that case. -/
def xorCW (a b : Codeword) : Option Codeword :=
  if a.length = b.length then some (List.zipWith xor a b) else none

/-- Binary_codeword.__or__ (bitstring `|`), used between codewords of one
code, which always have equal length; embedded totally via `zipWith`. -/
def orCW (a b : Codeword) : Codeword := List.zipWith or a b

/-- Hamming_distance(val1, val2): `(val1 ^ val2).weight()`.  The xor raises
(here: `none`) when the lengths differ. -/
def Hamming_distance (a b : Codeword) : Option Nat :=
  (xorCW a b).map weight

/-- Total variant of the Hamming distance used internally where the Python
code guarantees equal lengths (all members of one Binary_code). -/
def hammingWt (a b : Codeword) : Nat := weight (List.zipWith xor a b)

/-! ## Binary codes (class Binary_code) -/

/-- Python set insertion (`set.add`): no-op when the element is present. -/
def setInsert (l : List Codeword) (w : Codeword) : List Codeword :=
  if w ∈ l then l else w :: l

/-- Binary_code: a declared length plus a set of codewords.  The Python set
is embedded as a list in arbitrary iteration order. -/
structure Binary_code where
  length : Nat
  codewords : List Codeword
deriving DecidableEq

/-- The well-formedness that Binary_code maintains: members are unique
(Python set semantics) and every member has the declared length
(checked by `add` on every insertion). -/
def Binary_code.WF (c : Binary_code) : Prop :=
  c.codewords.Nodup ∧ ∀ w ∈ c.codewords, w.length = c.length

instance (c : Binary_code) : Decidable c.WF := by
  unfold Binary_code.WF; infer_instance

/-- Binary_code.size: `len(self.codewords)`. -/
def Binary_code.size (c : Binary_code) : Nat := c.codewords.length

/-- Binary_code.add: insert after checking the length (`check_length=True`
raises BinaryCodeError, here `none`, on a length mismatch). -/
def Binary_code.add (c : Binary_code) (w : Codeword) : Option Binary_code :=
  if w.length = c.length then some { c with codewords := setInsert c.codewords w }
  else none

/-- Binary_code.remove_extreme_codeword: remove the all-zero (bit = false)
or all-one (bit = true) codeword if present; return 1 if it was present,
else 0. -/
def Binary_code.remove_extreme_codeword (c : Binary_code) (bit : Bool) :
    Binary_code × Nat :=
  let ex := List.replicate c.length bit
  if ex ∈ c.codewords then
    ({ c with codewords := c.codewords.filter (fun w => w ≠ ex) }, 1)
  else (c, 0)

/-! ### Construction from a generator matrix (method 'matrix'/'matrixfile') -/

/-- `Binary_codeword(x, length=k).list()`: the k-bit binary expansion of x,
MSB first (bitstring uint representation). -/
def natToBits (k x : Nat) : List Nat :=
  (List.range k).map (fun i => x / 2 ^ (k - 1 - i) % 2)

/-- Column count of a matrix given as a list of rows (numpy `shape[1]`). -/
def matCols (G : List (List Nat)) : Nat := G.head?.elim 0 List.length

/-- numpy `dot(x, G)` for a length-k vector and a k-row matrix. -/
def vecMatMul (x : List Nat) (G : List (List Nat)) : List Nat :=
  (List.range (matCols G)).map
    (fun j => ((x.zip G).map (fun p => p.1 * p.2.getD j 0)).sum)

/-- One generated codeword: `dot(x, generator_matrix) % 2`, read as bits. -/
def encodeWord (x : List Nat) (G : List (List Nat)) : Codeword :=
  (vecMatMul x G).map (fun v => v % 2 == 1)

/-- Binary_code.get_code_from_generator_matrix on a fresh code of declared
length L (the 'matrix' and 'matrixfile' construction modes): check that L
matches the matrix's column count (else BinaryCodeError, here `none`), then
add the codeword `dot(x, G) % 2` for every input x in `range(2 ** k)`. -/
def get_code_from_generator_matrix (L : Nat) (G : List (List Nat)) :
    Option Binary_code :=
  if L = matCols G then
    (List.range (2 ^ G.length)).foldlM
      (fun c x => c.add (encodeWord (natToBits G.length x) G))
      (Binary_code.mk L [])
  else none

/-! ### Statistics -/

/-- All unordered pairs of a list, in the order `itertools.combinations`
produces them. -/
def combos : List Codeword → List (Codeword × Codeword)
  | [] => []
  | x :: xs => xs.map (fun y => (x, y)) ++ combos xs

/-- Binary_code.find_Hamming_distance_range: `(None, None)` for an empty
code, otherwise fold min/max of all pairwise Hamming distances starting
from the impossible extremes `(length + 1, 0)`.  The outer `Option` models
exception propagation from `Hamming_distance`. -/
def find_Hamming_distance_range (c : Binary_code) :
    Option (Option Nat × Option Nat) :=
  if c.codewords.length = 0 then some (none, none)
  else
    ((combos c.codewords).foldlM
        (fun lh p =>
          (Hamming_distance p.1 p.2).map (fun d => (min lh.1 d, max lh.2 d)))
        (c.length + 1, 0)).map
      (fun lh => (some lh.1, some lh.2))

/-- The pure min/max fold performed by find_Hamming_distance_range once
every Hamming_distance call is known to succeed. -/
def minmaxFold (D : Codeword × Codeword → Nat)
    (ps : List (Codeword × Codeword)) (init : Nat × Nat) : Nat × Nat :=
  ps.foldl (fun lh p => (min lh.1 (D p), max lh.2 (D p))) init

/-- Binary_code.find_bit_sum_counts: the sorted (weight, count) histogram
of the code. -/
def find_bit_sum_counts (c : Binary_code) : List (Nat × Nat) :=
  (List.insertionSort (· ≤ ·) (c.codewords.map weight).dedup).map
    (fun w => (w, c.codewords.countP (fun cw => weight cw == w)))

/-! ### Derived codes -/

/-- Binary_code.add_parity_bit: append to every codeword a bit equal to its
weight mod 2, collecting the results in a fresh code of length L+1 (each
`add` length-checks, hence the `Option`). -/
def add_parity_bit (c : Binary_code) : Option Binary_code :=
  c.codewords.foldlM
    (fun nc w => nc.add (w ++ [weight w % 2 == 1]))
    (Binary_code.mk (c.length + 1) [])

/-- Binary_code.choose_codewords_by_bit_sum (with `replace_self=False`):
keep the codewords whose weight is in [low, high]; `high = -1` means "use
the largest weight in the histogram", which indexes `[-1]` into the
histogram and therefore raises IndexError (here `none`) on an empty code. -/
def choose_codewords_by_bit_sum (c : Binary_code) (low high : Int) :
    Option (List Codeword) :=
  match (if high = -1
         then (find_bit_sum_counts c).getLast?.map (fun p => (p.1 : Int))
         else some high) with
  | none => none
  | some h =>
      some (c.codewords.filter
        (fun w => decide (low ≤ (weight w : Int)) && decide ((weight w : Int) ≤ h)))

/-! ### Bit-sum-biased sampling -/

/-- The accumulation loop of give_N_codewords_by_bit_sum: walk the (already
direction-sorted) histogram, collecting buckets until at least N codewords
are covered (the Python loop records only the bit-sums; the counts are kept
alongside here so the covered total is visible to the theorems). -/
def accumulateBuckets (N : Nat) : List (Nat × Nat) → Nat → List (Nat × Nat) →
    List (Nat × Nat)
  | [], _, acc => acc
  | (w, cnt) :: rest, total, acc =>
      if N ≤ total + cnt then acc ++ [(w, cnt)]
      else accumulateBuckets N rest (total + cnt) (acc ++ [(w, cnt)])

/-- The contract of `random.sample(population, N)` for `N ≤ len(population)`:
some N distinct members of the population. -/
def ValidPick (pick : List Codeword → Nat → List Codeword) : Prop :=
  ∀ l n, n ≤ l.length →
    (pick l n).length = n ∧ (l.Nodup → (pick l n).Nodup) ∧ ∀ w ∈ pick l n, w ∈ l

/-- `sorted(self.find_bit_sum_counts(), reverse=take_high)`: the histogram
is already ascending, so the reverse-sort is its reversal. -/
def sortedHistogram (c : Binary_code) (take_high : Bool) : List (Nat × Nat) :=
  if take_high then (find_bit_sum_counts c).reverse else find_bit_sum_counts c

/-- Binary_code.give_N_codewords_by_bit_sum, parameterized by the random
sampler `pick`.  Raises (here `none`) when N exceeds the code size; sorts
the histogram low-to-high (or high-to-low when take_high), accumulates
buckets until N codewords are covered, takes `min`/`max` of the used
bit-sums (ValueError, here `none`, on an empty bucket list), collects all
codewords in that bit-sum range and samples N of them. -/
def give_N_codewords_by_bit_sum (pick : List Codeword → Nat → List Codeword)
    (c : Binary_code) (N : Nat) (take_high : Bool) : Option (List Codeword) :=
  if c.size < N then none
  else
    match accumulateBuckets N (sortedHistogram c take_high) 0 [] with
    | [] => none
    | u :: us =>
        let lo := (us.map Prod.fst).foldl min u.1
        let hi := (us.map Prod.fst).foldl max u.1
        (choose_codewords_by_bit_sum c (lo : Int) (hi : Int)).map
          (fun pool => pick pool N)

/-- A deterministic sampler satisfying random.sample's contract which
prefers everything over the all-zero 2-bit codeword: one admissible outcome
of the random choice. -/
def biasedPick (l : List Codeword) (n : Nat) : List Codeword :=
  (l.filter (fun w => decide (w ≠ [false, false])) ++
    l.filter (fun w => !(decide (w ≠ [false, false])))).take n

/-- The corrected behaviour of give_N_codewords_by_bit_sum: the result is
some N distinct members drawn from the whole accumulated bit-sum range (all
used buckets pooled together), with no guarantee for codewords of earlier
buckets. -/
def giveNSpec (pick : List Codeword → Nat → List Codeword)
    (c : Binary_code) (N : Nat) (take_high : Bool) : Prop :=
  ∃ res u us,
    accumulateBuckets N (sortedHistogram c take_high) 0 [] = u :: us ∧
    give_N_codewords_by_bit_sum pick c N take_high = some res ∧
    res.length = N ∧ res.Nodup ∧
    ∀ w ∈ res, w ∈ c.codewords ∧
      (us.map Prod.fst).foldl min u.1 ≤ weight w ∧
      weight w ≤ (us.map Prod.fst).foldl max u.1

/-! ### Clonality conflict counting -/

/-- _change_all_position_combinations: all words reachable from `val` by
inverting at most `maxN` of the positions in `allowed`
(`itertools.combinations` enumerates the position subsets; the results are
collected into a set, here deduplicated by `setInsert`). -/
def change_all_position_combinations (val : Codeword) (maxN : Nat)
    (allowed : List Nat) : List Codeword :=
  (((List.range (maxN + 1)).flatMap (fun k => allowed.sublistsLen k)).map
      (fun poss =>
        (List.range val.length).map
          (fun i => if i ∈ poss then !(val.getD i false) else val.getD i false))).foldl
    setInsert []

/-- The allowed-changes budget: a plain int or a
(1-to-0 changes, 0-to-1 changes) pair. -/
inductive NChanges
  | single (n : Nat)
  | pair (oneToZero zeroToOne : Nat)
deriving DecidableEq

/-- expand_by_all_mutations: every codeword within the allowed-changes
budget of some member of the set; for a pair budget the 1→0 flips are
applied to 1-positions first, then the 0→1 flips to the resulting
0-positions. -/
def expand_by_all_mutations (cws : List Codeword) (nc : NChanges) :
    List Codeword :=
  match nc with
  | .single n =>
      (cws.map (fun w => change_all_position_combinations w n
        (List.range w.length))).flatten.foldl setInsert []
  | .pair oneToZero zeroToOne =>
      (cws.map (fun w =>
        let ones := (List.range w.length).filter (fun i => w.getD i false == true)
        ((change_all_position_combinations w oneToZero ones).map (fun v =>
          let zeros := (List.range v.length).filter (fun i => v.getD i false == false)
          change_all_position_combinations v zeroToOne zeros)).flatten)).flatten.foldl
        setInsert []

/-- The base codewords whose expansion reaches `r`
(`expand_by_all_mutations_dict` lookup, built by expanding each member
separately and inverting the map). -/
def expandedBases (cws : List Codeword) (nc : NChanges) (r : Codeword) :
    List Codeword :=
  cws.filter (fun C => r ∈ expand_by_all_mutations [C] nc)

/-- Modelled from the spec: `invert_dict_tolists` (general_utilities, not
under src/) inverts a key-to-value map into a value-to-keys map; here it
reshapes the codeword-to-count list into the returned
conflict-count-to-codewords mapping. -/
def invert_counts (l : List (Codeword × Nat)) : List (Nat × List Codeword) :=
  ((l.map Prod.snd).dedup).map
    (fun n => (n, (l.filter (fun p => p.2 = n)).map Prod.fst))

/-- One pass of the zero-tolerance conflict scan: the conflict credits that
the pair (A, B) adds to codeword w. -/
def zeroCaseBump (cws : List Codeword) (count_self_conflict : Bool)
    (A B w : Codeword) : Nat :=
  let r := orCW A B
  if r = A ∨ r = B then
    if count_self_conflict then (if w = A ∨ w = B then 1 else 0) else 0
  else if r ∈ cws then (if w = A ∨ w = B ∨ w = r then 1 else 0)
  else 0

/-- One pass of the general conflict scan (nonzero tolerance): the conflict
credits that the pair (A, B) adds to codeword w, based on the expanded
forbidden-result map. -/
def generalCaseBump (cws : List Codeword) (nc : NChanges)
    (count_self_conflict : Bool) (A B w : Codeword) : Nat :=
  let r := orCW A B
  let bases := expandedBases cws nc r
  if bases ≠ [] then
    if (bases.filter (fun C => C ≠ A ∧ C ≠ B)) ≠ [] then
      (if w ∈ bases ∨ w = A ∨ w = B then 1 else 0)
    else if count_self_conflict then (if w = A ∨ w = B then 1 else 0)
    else 0
  else 0

/-- Binary_code.clonality_count_conflicts.  State effect first: when
`remove_all_zero_codeword` is set the all-zero codeword is removed from the
code itself; the remaining body only reads the (possibly reduced) codeword
set, sums conflict credits over all pairs, and returns the inverted
count-to-codewords map.  Returns (mutated code, codeword-to-count list,
count-to-codewords list); the printing/quiet arguments only affect console
output and are not modelled. -/
def clonality_count_conflicts (c : Binary_code) (nc : NChanges)
    (count_self_conflict remove_all_zero_codeword : Bool) :
    Binary_code × List (Codeword × Nat) × List (Nat × List Codeword) :=
  let c' := if remove_all_zero_codeword
            then (c.remove_extreme_codeword false).1 else c
  let zeroTol := nc = NChanges.single 0 ∨ nc = NChanges.pair 0 0
  let countOf : Codeword → Nat := fun w =>
    ((combos c'.codewords).map
      (fun p =>
        if zeroTol then zeroCaseBump c'.codewords count_self_conflict p.1 p.2 w
        else generalCaseBump c'.codewords nc count_self_conflict p.1 p.2 w)).sum
  let counts := c'.codewords.map (fun w => (w, countOf w))
  (c', counts, invert_counts counts)

/-! ## Graphs (graph_clique_find.py) -/

/-- A Graph: the current node set (a list in arbitrary iteration order,
node identity being the value, which the source assumes distinct) together
with every node's current neighbor set.  `degree` in the source is kept
equal to the neighbor-set size at every mutation, so it is embedded as the
neighbor-list length. -/
structure Graph where
  nodes : List Nat
  nbrs : Nat → List Nat

/-- Graph.size (`self.size`, kept equal to `len(self.nodes)`). -/
def Graph.size (g : Graph) : Nat := g.nodes.length

/-- Node.degree (kept equal to `len(self.neighbors)`). -/
def Graph.deg (g : Graph) (n : Nat) : Nat := (g.nbrs n).length

/-- The invariant every graph built by `build_edges_by_function` satisfies
and every (non-raising) mutation preserves: distinct nodes, duplicate-free
neighbor sets that stay inside the graph, no self-edges, and symmetric
edges. -/
def Graph.WF (g : Graph) : Prop :=
  g.nodes.Nodup ∧
  (∀ n ∈ g.nodes, (g.nbrs n).Nodup) ∧
  (∀ n ∈ g.nodes, ∀ m ∈ g.nbrs n, m ∈ g.nodes) ∧
  (∀ n ∈ g.nodes, n ∉ g.nbrs n) ∧
  (∀ n ∈ g.nodes, ∀ m ∈ g.nodes, (m ∈ g.nbrs n ↔ n ∈ g.nbrs m))

instance (g : Graph) : Decidable g.WF := by
  unfold Graph.WF; infer_instance

/-- Graph.clear: `self.nodes = set(); self.size = 0` (the node objects keep
their neighbor records, which are no longer part of the graph). -/
def Graph.clear (g : Graph) : Graph := { g with nodes := [] }

/-- Graph.remove_node: remove `n` from the neighbor set of each of its
neighbors, clear its own neighbor record unless `keep` is set, and remove
it from the node set.  (The source raises GraphNodeError when `n` is not in
the graph or an edge is one-sided; under `Graph.WF` neither happens.) -/
def Graph.removeNode (g : Graph) (n : Nat) (keep : Bool) : Graph :=
  { nodes := g.nodes.filter (fun x => x ≠ n)
    nbrs := fun m =>
      if m = n then (if keep then g.nbrs n else [])
      else if m ∈ g.nbrs n then (g.nbrs m).filter (fun x => x ≠ n)
      else g.nbrs m }

/-- Graph.add_node_with_neighbors: add `n` back to the neighbor set of every
node in its (preserved) neighbor record and to the node set. -/
def Graph.addNodeWithNeighbors (g : Graph) (n : Nat) : Graph :=
  { nodes := n :: g.nodes
    nbrs := fun m =>
      if m = n then g.nbrs n
      else if m ∈ g.nbrs n then n :: g.nbrs m
      else g.nbrs m }

/-- One pass of Graph.remove_nodes_by_degree: iterate over the node list
captured at entry, removing each node whose current degree is below the
floor. -/
def prunePass (d : Nat) : Graph → List Nat → Graph
  | g, [] => g
  | g, n :: ns =>
      if g.deg n < d then prunePass d (g.removeNode n false) ns
      else prunePass d g ns

/-- Graph.remove_nodes_by_degree with `if_repeat=True`: repeat the pass
until one removes nothing (in the source, until `N_removed == 0`; each
removal shrinks the node set by exactly one, so that is equivalent to the
size having stopped decreasing). -/
def removeNodesByDegree (g : Graph) (d : Nat) : Graph :=
  let g1 := prunePass d g g.nodes
  if _h : g1.nodes.length < g.nodes.length then removeNodesByDegree g1 d else g1
termination_by g.nodes.length

/-- Graph.is_clique: every node's degree equals size - 1 (true for the
empty graph). -/
def isClique (g : Graph) : Bool :=
  g.nodes.all (fun n => g.deg n == g.size - 1)

/-- The update `required_nodes.update([node for node in unknown_nodes if
node.degree == max_degree])` of reduce_to_clique: the required set grows by
the max-degree nodes not already in it. -/
def requiredAfter (g1 : Graph) (required : List Nat) : List Nat :=
  required ++
    (g1.nodes.filter (fun n => n ∉ required && g1.deg n == g1.size - 1))

/-- `unknown_nodes = self.nodes - required_nodes` of reduce_to_clique. -/
def unknownNodes (g1 : Graph) (required1 : List Nat) : List Nat :=
  g1.nodes.filter (fun n => n ∉ required1)

mutual

/-- Graph.reduce_to_clique.  Functional reading of the destructive source:
the graph and the (shared, mutated-in-place) required_nodes set are
threaded through and returned; `removeNodesByDegree g (min_size - 1)`
plays the role of the graph after the initial fixpoint pruning.  The
recursion is fuel-indexed; `none` models only fuel exhaustion, never a
source outcome (the source always terminates: every recursive call acts on
a strictly smaller graph). -/
def reduce_to_clique (fuel : Nat) (g : Graph) (min_size : Nat)
    (required : List Nat) : Option (Graph × List Nat) :=
  match fuel with
  | 0 => none
  | fuel + 1 =>
      if (removeNodesByDegree g (min_size - 1)).size < min_size then
        some ((removeNodesByDegree g (min_size - 1)).clear, required)
      else if isClique (removeNodesByDegree g (min_size - 1)) then
        some (removeNodesByDegree g (min_size - 1), required)
      else
        tryNodes fuel (removeNodesByDegree g (min_size - 1)) min_size
          (requiredAfter (removeNodesByDegree g (min_size - 1)) required)
          (unknownNodes (removeNodesByDegree g (min_size - 1))
            (requiredAfter (removeNodesByDegree g (min_size - 1)) required))

/-- The `for node in unknown_nodes` loop of reduce_to_clique: detach the
node (keeping its neighbor record), recurse, stop if the result is a
clique, otherwise reattach it and try the next node; return the (non-clique)
graph when the candidates run out. -/
def tryNodes (fuel : Nat) (g : Graph) (min_size : Nat) (required : List Nat) :
    List Nat → Option (Graph × List Nat)
  | [] => some (g, required)
  | u :: us =>
      match reduce_to_clique fuel (g.removeNode u true) min_size required with
      | none => none
      | some (g', required') =>
          if isClique g' then some (g', required')
          else tryNodes fuel (g'.addNodeWithNeighbors u) min_size required' us

end

/-- A node adjacent to every other node of the graph. -/
def universalIn (g : Graph) (r : Nat) : Prop :=
  ∀ m ∈ g.nodes, m ≠ r → m ∈ g.nbrs r

/-- The invariant of the shared required_nodes set: every recorded node
still present in the graph is (still) adjacent to all other nodes.  It
holds trivially for the initial empty set and is preserved by every
pruning and detaching step of the search. -/
def ReqInv (g : Graph) (req : List Nat) : Prop :=
  ∀ r ∈ req, r ∈ g.nodes → universalIn g r

/-- The requested postcondition of reduce_to_clique, on an optional result:
whenever the call returns, the final graph is either empty or a genuine
clique (every node's degree is size - 1 and all distinct nodes are mutually
adjacent) of size at least min_size. -/
def ReduceGood (min_size : Nat) : Option (Graph × List Nat) → Prop
  | none => True
  | some p =>
      p.1.nodes = [] ∨
      (min_size ≤ p.1.size ∧
       (∀ x ∈ p.1.nodes, p.1.deg x = p.1.size - 1) ∧
       (∀ x ∈ p.1.nodes, ∀ y ∈ p.1.nodes, x ≠ y → y ∈ p.1.nbrs x))

/-- The claimed contract of reduce_to_clique on a top-level call (fresh
empty required set): an input smaller than min_size comes back empty; an
input that is already a clique of sufficient size comes back unchanged
(with the required set untouched); and whenever the call returns, the final
graph is empty or a genuine clique of size at least min_size. -/
def reduceCliqueSpec (g : Graph) (N fuel : Nat) : Prop :=
  (g.size < N → ∀ out, reduce_to_clique (fuel + 1) g N [] = some out →
    out.1.nodes = []) ∧
  (isClique g = true → N ≤ g.size →
    reduce_to_clique (fuel + 1) g N [] = some (g, [])) ∧
  ReduceGood N (reduce_to_clique fuel g N [])

/-! ### Node.add_neighbor_nocheck (C9) -/

/-- Exceptions that can escape the graph module's methods. -/
inductive PyExc
  | graphNodeError
  | nameError
deriving DecidableEq

/-- The names defined at the top level of graph_clique_find.py (the import
plus the two classes and the exception class).  There is no top-level
`add_neighbor`. -/
def graph_clique_find_globals : List String :=
  ["combinations", "GraphNodeError", "Node", "Graph"]

/-- The local names in scope inside the body of Node.add_neighbor_nocheck:
its two parameters. -/
def add_neighbor_nocheck_locals : List String := ["self", "node"]

/-- Node.add_neighbor on a node's neighbor list: raise GraphNodeError if
already a neighbor, else increment the degree and add (the list grows by
one entry, keeping degree = length). -/
def Node.add_neighbor (nbrs : List Nat) (m : Nat) : Except PyExc (List Nat) :=
  if m ∈ nbrs then .error .graphNodeError else .ok (m :: nbrs)

/-- Node.add_neighbor_nocheck: the body is
`try: add_neighbor(node)  except GraphNodeError: pass`.
The bare name `add_neighbor` is looked up in the local then the module
scope (Python name resolution; no builtin has that name); if it resolved it
would run the bound method, but it resolves nowhere, so the call raises
NameError, which the handler (GraphNodeError only) does not catch. -/
def Node.add_neighbor_nocheck (nbrs : List Nat) (m : Nat) :
    Except PyExc (List Nat) :=
  let body : Except PyExc (List Nat) :=
    if ("add_neighbor" ∈ add_neighbor_nocheck_locals ∨
        "add_neighbor" ∈ graph_clique_find_globals)
    then Node.add_neighbor nbrs m
    else .error .nameError
  match body with
  | .error .graphNodeError => .ok nbrs
  | r => r

/-! ## Conclusion predicates for the claims -/

/-- The corrected behaviour of find_Hamming_distance_range: `(None, None)`
only for the empty code; the impossible extremes `(length + 1, 0)` for a
one-member code; the genuine (min, max) over all unordered pairs from two
members up. -/
def hammingRangeSpec (c : Binary_code) : Prop :=
  (c.size = 0 → find_Hamming_distance_range c = some (none, none)) ∧
  (c.size = 1 → find_Hamming_distance_range c = some (some (c.length + 1), some 0)) ∧
  (2 ≤ c.size →
    ∃ lo hi, find_Hamming_distance_range c = some (some lo, some hi) ∧
      (∀ x ∈ c.codewords, ∀ y ∈ c.codewords, x ≠ y →
        lo ≤ hammingWt x y ∧ hammingWt x y ≤ hi) ∧
      (∃ x ∈ c.codewords, ∃ y ∈ c.codewords, x ≠ y ∧ hammingWt x y = lo) ∧
      (∃ x ∈ c.codewords, ∃ y ∈ c.codewords, x ≠ y ∧ hammingWt x y = hi))

/-- The claimed behaviour of add_parity_bit: construction succeeds, the
codeword count is preserved, the length grows by one, the result is again a
well-formed code, and all pairwise Hamming distances in the result are
even. -/
def paritySpec (c : Binary_code) : Prop :=
  ∃ c', add_parity_bit c = some c' ∧
    c'.size = c.size ∧
    c'.length = c.length + 1 ∧
    c'.WF ∧
    ∀ x ∈ c'.codewords, ∀ y ∈ c'.codewords, hammingWt x y % 2 = 0

/-- The frame property of clonality_count_conflicts: the declared length is
never touched; with remove_all_zero_codeword=False the codeword set is left
identical; with it True exactly the all-zero codeword (when present) is
removed and nothing else changes. -/
def clonalityFrameSpec (c : Binary_code) (nc : NChanges) (csc rz : Bool) :
    Prop :=
  (clonality_count_conflicts c nc csc rz).1.length = c.length ∧
  (rz = false → (clonality_count_conflicts c nc csc rz).1 = c) ∧
  (rz = true →
    List.replicate c.length false ∉
        (clonality_count_conflicts c nc csc rz).1.codewords ∧
    ∀ w, w ∈ (clonality_count_conflicts c nc csc rz).1.codewords ↔
      (w ∈ c.codewords ∧ w ≠ List.replicate c.length false))

/-- The round-trip property of remove_node(keep_neighbor_record=True)
followed by add_node_with_neighbors: the graph is restored exactly — same
node membership and size, and for every node the same neighbor membership
and degree as before. -/
def restoreSpec (g : Graph) (n : Nat) : Prop :=
  (∀ x, x ∈ ((g.removeNode n true).addNodeWithNeighbors n).nodes ↔
    x ∈ g.nodes) ∧
  ((g.removeNode n true).addNodeWithNeighbors n).size = g.size ∧
  (∀ x y, y ∈ ((g.removeNode n true).addNodeWithNeighbors n).nbrs x ↔
    y ∈ g.nbrs x) ∧
  (∀ x, ((g.removeNode n true).addNodeWithNeighbors n).deg x = g.deg x)

/-! ## Theorems about codewords -/

theorem hammingWt_comm (a b : Codeword) : hammingWt a b = hammingWt b a := by
  unfold hammingWt weight
  induction a generalizing b with
  | nil => cases b <;> rfl
  | cons x xs ih =>
    cases b with
    | nil => rfl
    | cons y ys =>
      simp only [List.zipWith_cons_cons, List.count_cons]
      rw [ih ys, Bool.xor_comm]

theorem hammingWt_self (a : Codeword) : hammingWt a a = 0 := by
  unfold hammingWt weight
  induction a with
  | nil => rfl
  | cons x xs ih =>
    simp only [List.zipWith_cons_cons, List.count_cons, ih]
    cases x <;> simp

/-- On equal-length words the Hamming distance counts the differing
positions. -/
theorem hammingWt_eq_countP (a : Codeword) :
    ∀ b : Codeword, a.length = b.length →
      hammingWt a b =
        (List.range a.length).countP (fun i => a.getD i false ≠ b.getD i false) := by
  induction a with
  | nil => intro b h; cases b <;> simp_all [hammingWt, weight]
  | cons x xs ih =>
    intro b h
    cases b with
    | nil => simp at h
    | cons y ys =>
      simp only [List.length_cons, Nat.succ_inj] at h
      have hcnt := ih ys h
      rw [hammingWt, weight] at hcnt
      simp only [hammingWt, weight, List.zipWith_cons_cons, List.count_cons,
        List.length_cons, List.range_succ_eq_map, List.countP_cons, List.countP_map,
        Function.comp_def, List.getD_cons_succ, List.getD_cons_zero, hcnt]
      cases x <;> cases y <;> simp

theorem hammingWt_le (a b : Codeword) : hammingWt a b ≤ a.length := by
  unfold hammingWt weight
  calc List.count true (List.zipWith xor a b) ≤ (List.zipWith xor a b).length :=
        List.count_le_length true _
    _ ≤ a.length := by rw [List.length_zipWith]; omega

theorem Hamming_distance_eq_some {a b : Codeword} (h : a.length = b.length) :
    Hamming_distance a b = some (hammingWt a b) := by
  simp [Hamming_distance, xorCW, h, hammingWt]

/-- C4: on equal-length codewords Hamming_distance returns the number of
differing bit positions (the popcount of the XOR); it is zero on identical
inputs and symmetric; on codewords of different lengths the underlying XOR
raises, so the call fails (returns `none`). -/
theorem C4_Hamming_distance_spec (a b : Codeword) :
    (a.length = b.length →
      Hamming_distance a b =
        some ((List.range a.length).countP
          (fun i => a.getD i false ≠ b.getD i false))) ∧
    Hamming_distance a a = some 0 ∧
    Hamming_distance a b = Hamming_distance b a ∧
    (a.length ≠ b.length → Hamming_distance a b = none) := by
  refine ⟨?_, ?_, ?_, ?_⟩
  · intro h
    rw [Hamming_distance_eq_some h, hammingWt_eq_countP a b h]
  · rw [Hamming_distance_eq_some rfl, hammingWt_self]
  · by_cases h : a.length = b.length
    · rw [Hamming_distance_eq_some h, Hamming_distance_eq_some h.symm,
        hammingWt_comm]
    · have h2 : b.length ≠ a.length := fun hc => h hc.symm
      simp [Hamming_distance, xorCW, h, h2]
  · intro h
    simp [Hamming_distance, xorCW, h]

/-- Witness for C4 at the spec's example, Hamming_distance('101','010') = 3. -/
theorem C4_Hamming_distance_spec_witness :
    ([true, false, true] : Codeword).length =
        ([false, true, false] : Codeword).length ∧
    Hamming_distance [true, false, true] [false, true, false] = some 3 := by
  have h := C4_Hamming_distance_spec [true, false, true] [false, true, false]
  refine ⟨by decide, ?_⟩
  rw [h.1 (by decide)]
  decide

/-! ## Theorems about find_Hamming_distance_range (C3) -/

theorem combos_mem {x y : Codeword} :
    ∀ l, (x, y) ∈ combos l → x ∈ l ∧ y ∈ l := by
  intro l
  induction l with
  | nil => simp [combos]
  | cons a t ih =>
    intro hm
    simp only [combos, List.mem_append, List.mem_map] at hm
    rcases hm with ⟨b, hb, he⟩ | hm
    · simp only [Prod.mk.injEq] at he
      obtain ⟨rfl, rfl⟩ := he
      exact ⟨List.mem_cons_self _ _, List.mem_cons_of_mem _ hb⟩
    · obtain ⟨hx, hy⟩ := ih hm
      exact ⟨List.mem_cons_of_mem _ hx, List.mem_cons_of_mem _ hy⟩

theorem combos_mem_ne {x y : Codeword} :
    ∀ l, l.Nodup → (x, y) ∈ combos l → x ≠ y := by
  intro l
  induction l with
  | nil => simp [combos]
  | cons a t ih =>
    intro hnd hm
    simp only [combos, List.mem_append, List.mem_map] at hm
    rcases hm with ⟨b, hb, he⟩ | hm
    · simp only [Prod.mk.injEq] at he
      obtain ⟨rfl, rfl⟩ := he
      intro hc
      exact (List.nodup_cons.mp hnd).1 (by rw [hc]; exact hb)
    · exact ih (List.nodup_cons.mp hnd).2 hm

theorem combos_pair {x y : Codeword} :
    ∀ l, x ∈ l → y ∈ l → x ≠ y →
      (x, y) ∈ combos l ∨ (y, x) ∈ combos l := by
  intro l
  induction l with
  | nil => simp
  | cons a t ih =>
    intro hx hy hxy
    rcases List.mem_cons.mp hx with hxa | hx2
    · subst hxa
      rcases List.mem_cons.mp hy with hya | hy2
      · exact absurd hya.symm hxy
      · left
        simp only [combos, List.mem_append, List.mem_map]
        exact Or.inl ⟨y, hy2, rfl⟩
    · rcases List.mem_cons.mp hy with hya | hy2
      · subst hya
        right
        simp only [combos, List.mem_append, List.mem_map]
        exact Or.inl ⟨x, hx2, rfl⟩
      · rcases ih hx2 hy2 hxy with h | h
        · left; simp only [combos, List.mem_append]; exact Or.inr h
        · right; simp only [combos, List.mem_append]; exact Or.inr h

theorem combos_two {l : List Codeword} (h : 2 ≤ l.length) :
    ∃ p, p ∈ combos l := by
  match l, h with
  | a :: b :: t, _ =>
      refine ⟨(a, b), ?_⟩
      simp only [combos, List.mem_append, List.mem_map]
      exact Or.inl ⟨b, List.mem_cons_self b t, rfl⟩

theorem range_foldlM_eq (L : Nat) :
    ∀ (ps : List (Codeword × Codeword)) (init : Nat × Nat),
      (∀ p ∈ ps, p.1.length = L ∧ p.2.length = L) →
      (ps.foldlM
        (fun lh p =>
          (Hamming_distance p.1 p.2).map (fun d => (min lh.1 d, max lh.2 d)))
        init)
        = some (minmaxFold (fun p => hammingWt p.1 p.2) ps init) := by
  intro ps
  induction ps with
  | nil => intro init _; rfl
  | cons q t ih =>
    intro init hall
    have hq := hall q (List.mem_cons_self q t)
    have hd : Hamming_distance q.1 q.2 = some (hammingWt q.1 q.2) :=
      Hamming_distance_eq_some (hq.1.trans hq.2.symm)
    rw [List.foldlM_cons, hd]
    simp only [Option.map_some', Option.bind_eq_bind, Option.some_bind]
    rw [ih _ (fun p hp => hall p (List.mem_cons_of_mem q hp))]
    rfl

theorem minmaxFold_le (D : Codeword × Codeword → Nat) :
    ∀ (ps : List (Codeword × Codeword)) (init : Nat × Nat),
      (minmaxFold D ps init).1 ≤ init.1 ∧ init.2 ≤ (minmaxFold D ps init).2 := by
  intro ps
  induction ps with
  | nil => intro init; exact ⟨le_refl _, le_refl _⟩
  | cons q t ih =>
    intro init
    have h := ih (min init.1 (D q), max init.2 (D q))
    refine ⟨le_trans h.1 ?_, le_trans ?_ h.2⟩
    · exact min_le_left _ _
    · exact le_max_left _ _

theorem minmaxFold_bounds (D : Codeword × Codeword → Nat) :
    ∀ (ps : List (Codeword × Codeword)) (init : Nat × Nat) (p : _),
      p ∈ ps →
      (minmaxFold D ps init).1 ≤ D p ∧ D p ≤ (minmaxFold D ps init).2 := by
  intro ps
  induction ps with
  | nil => intro init p hp; simp at hp
  | cons q t ih =>
    intro init p hp
    rcases List.mem_cons.mp hp with hpq | hpt
    · subst hpq
      have h := minmaxFold_le D t (min init.1 (D p), max init.2 (D p))
      exact ⟨le_trans h.1 (min_le_right _ _), le_trans (le_max_right _ _) h.2⟩
    · exact ih _ p hpt

theorem minmaxFold_attain_lo (D : Codeword × Codeword → Nat) :
    ∀ (ps : List (Codeword × Codeword)) (init : Nat × Nat),
      (minmaxFold D ps init).1 = init.1 ∨
        ∃ p ∈ ps, (minmaxFold D ps init).1 = D p := by
  intro ps
  induction ps with
  | nil => intro init; exact Or.inl rfl
  | cons q t ih =>
    intro init
    rcases ih (min init.1 (D q), max init.2 (D q)) with h | ⟨p, hp, he⟩
    · rcases min_choice init.1 (D q) with hm | hm
      · exact Or.inl (h.trans hm)
      · exact Or.inr ⟨q, List.mem_cons_self q t, h.trans hm⟩
    · exact Or.inr ⟨p, List.mem_cons_of_mem q hp, he⟩

theorem minmaxFold_attain_hi (D : Codeword × Codeword → Nat) :
    ∀ (ps : List (Codeword × Codeword)) (init : Nat × Nat),
      (minmaxFold D ps init).2 = init.2 ∨
        ∃ p ∈ ps, (minmaxFold D ps init).2 = D p := by
  intro ps
  induction ps with
  | nil => intro init; exact Or.inl rfl
  | cons q t ih =>
    intro init
    rcases ih (min init.1 (D q), max init.2 (D q)) with h | ⟨p, hp, he⟩
    · rcases max_choice init.2 (D q) with hm | hm
      · exact Or.inl (h.trans hm)
      · exact Or.inr ⟨q, List.mem_cons_self q t, h.trans hm⟩
    · exact Or.inr ⟨p, List.mem_cons_of_mem q hp, he⟩

/-- C3 counterexample: on a one-member code find_Hamming_distance_range
does not return (None, None) (it returns the unoverwritten impossible
extremes (length + 1, 0)); the claim states (None, None) for one-member
codes. -/
theorem C3_counterexample :
    find_Hamming_distance_range (Binary_code.mk 3 [[true, false, false]]) ≠
      some (none, none) := by decide

/-- C3 (corrected): (None, None) only for the empty code; for a one-member
code the start values (length + 1, 0) are returned unchanged; for two or
more members the returned pair is the minimum and maximum Hamming distance
over all unordered pairs of distinct members. -/
theorem C3_hamming_range (c : Binary_code) (h : c.WF) : hammingRangeSpec c := by
  obtain ⟨hnd, hlen⟩ := h
  refine ⟨?_, ?_, ?_⟩
  · intro h0
    have he : c.codewords = [] := List.length_eq_zero.mp h0
    simp [find_Hamming_distance_range, he]
  · intro h1
    obtain ⟨w, hw⟩ := List.length_eq_one.mp h1
    simp [find_Hamming_distance_range, hw, combos]
  · intro h2
    have h2' : 2 ≤ c.codewords.length := h2
    have hne : ¬ c.codewords.length = 0 := by omega
    have hall : ∀ p ∈ combos c.codewords,
        p.1.length = c.length ∧ p.2.length = c.length := by
      intro p hp
      obtain ⟨x, y⟩ := p
      obtain ⟨h1, h2'⟩ := combos_mem _ hp
      exact ⟨hlen _ h1, hlen _ h2'⟩
    have hsome := range_foldlM_eq c.length (combos c.codewords)
      (c.length + 1, 0) hall
    rw [find_Hamming_distance_range, if_neg hne, hsome]
    set r := minmaxFold (fun p => hammingWt p.1 p.2) (combos c.codewords)
      (c.length + 1, 0) with hr
    obtain ⟨p0, hp0⟩ := @combos_two c.codewords h2'
    have hDle : ∀ p ∈ combos c.codewords, hammingWt p.1 p.2 ≤ c.length := by
      intro p hp
      have := (hall p hp).1
      calc hammingWt p.1 p.2 ≤ p.1.length := hammingWt_le p.1 p.2
        _ = c.length := this
    refine ⟨r.1, r.2, by simp, ?_, ?_, ?_⟩
    · intro x hx y hy hxy
      rcases combos_pair _ hx hy hxy with hp | hp
      · exact minmaxFold_bounds _ _ _ _ hp
      · have hb := minmaxFold_bounds (fun p => hammingWt p.1 p.2) _
          (c.length + 1, 0) _ hp
        rw [hammingWt_comm]
        exact hb
    · rcases minmaxFold_attain_lo (fun p => hammingWt p.1 p.2)
        (combos c.codewords) (c.length + 1, 0) with hlo | ⟨p, hp, he⟩
      · exfalso
        have hb := minmaxFold_bounds (fun p => hammingWt p.1 p.2) _
          (c.length + 1, 0) _ hp0
        have hd0 := hDle p0 hp0
        rw [← hr] at hb hlo
        have hb1 : r.1 ≤ hammingWt p0.1 p0.2 := hb.1
        have hlo1 : r.1 = c.length + 1 := hlo
        omega
      · obtain ⟨hx, hy⟩ := combos_mem _ hp
        exact ⟨p.1, hx, p.2, hy, combos_mem_ne _ hnd
          (by obtain ⟨x, y⟩ := p; exact hp), by rw [← hr] at he; exact he.symm⟩
    · rcases minmaxFold_attain_hi (fun p => hammingWt p.1 p.2)
        (combos c.codewords) (c.length + 1, 0) with hhi | ⟨p, hp, he⟩
      · have hb := minmaxFold_bounds (fun p => hammingWt p.1 p.2) _
          (c.length + 1, 0) _ hp0
        obtain ⟨hx, hy⟩ := combos_mem _ hp0
        refine ⟨p0.1, hx, p0.2, hy, combos_mem_ne _ hnd
          (by obtain ⟨x, y⟩ := p0; exact hp0), ?_⟩
        rw [← hr] at hb hhi
        have hb2 : hammingWt p0.1 p0.2 ≤ r.2 := hb.2
        have hhi2 : r.2 = 0 := hhi
        omega
      · obtain ⟨hx, hy⟩ := combos_mem _ hp
        exact ⟨p.1, hx, p.2, hy, combos_mem_ne _ hnd
          (by obtain ⟨x, y⟩ := p; exact hp), by rw [← hr] at he; exact he.symm⟩

/-- Witness for C3 on a concrete two-member code. -/
theorem C3_hamming_range_witness :
    (Binary_code.mk 3 [[true, true, false], [true, false, true]]).WF ∧
    hammingRangeSpec (Binary_code.mk 3 [[true, true, false], [true, false, true]]) :=
  ⟨by decide, C3_hamming_range _ (by decide)⟩

/-! ## Theorems about choose_codewords_by_bit_sum (C7) -/

theorem sorted_le_getLast :
    ∀ (l : List Nat) (hne : l ≠ []), l.Sorted (· ≤ ·) →
      ∀ x ∈ l, x ≤ l.getLast hne := by
  intro l
  induction l with
  | nil => intro hne; exact absurd rfl hne
  | cons a t ih =>
    intro hne hs x hx
    cases t with
    | nil =>
      have hxa := List.mem_singleton.mp hx
      subst hxa
      simp [List.getLast]
    | cons b t2 =>
      rw [List.getLast_cons (List.cons_ne_nil b t2)]
      have hs2 := List.sorted_cons.mp hs
      rcases List.mem_cons.mp hx with hxa | hx2
      · subst hxa
        exact le_trans (hs2.1 b (List.mem_cons_self b t2))
          (ih (List.cons_ne_nil b t2) hs2.2 b (List.mem_cons_self b t2))
      · exact ih (List.cons_ne_nil b t2) hs2.2 x hx2

theorem getLast?_map_of_ne_nil (f : Nat → Nat × Nat) :
    ∀ (l : List Nat) (hne : l ≠ []),
      (l.map f).getLast? = some (f (l.getLast hne)) := by
  intro l
  induction l with
  | nil => intro hne; exact absurd rfl hne
  | cons a t ih =>
    intro hne
    cases t with
    | nil => rfl
    | cons b t2 =>
      have h2 := ih (List.cons_ne_nil b t2)
      simp only [List.map_cons] at h2 ⊢
      rw [List.getLast?_cons_cons, h2]
      conv_rhs => rw [List.getLast_cons (List.cons_ne_nil b t2)]

/-- The last entry of the sorted bit-sum histogram is the maximum weight. -/
theorem bit_sum_counts_max (c : Binary_code) (h : c.codewords ≠ []) :
    ∃ M cnt, (find_bit_sum_counts c).getLast? = some (M, cnt) ∧
      ∀ w ∈ c.codewords, weight w ≤ M := by
  have hd : (c.codewords.map weight).dedup ≠ [] := by
    rw [Ne, List.dedup_eq_nil, List.map_eq_nil_iff]
    exact h
  have hp := List.perm_insertionSort (· ≤ ·) ((c.codewords.map weight).dedup)
  have hs0ne : List.insertionSort (· ≤ ·) ((c.codewords.map weight).dedup) ≠ [] := by
    intro hc
    apply hd
    apply List.eq_nil_of_length_eq_zero
    rw [← hp.length_eq, hc]
    rfl
  set s0 := List.insertionSort (· ≤ ·) ((c.codewords.map weight).dedup) with hs0
  refine ⟨s0.getLast hs0ne,
    c.codewords.countP (fun cw => weight cw == s0.getLast hs0ne), ?_, ?_⟩
  · rw [find_bit_sum_counts, ← hs0,
      getLast?_map_of_ne_nil _ s0 hs0ne]
  · intro w hw
    have hmem : weight w ∈ s0 := by
      rw [hp.mem_iff, List.mem_dedup]
      exact List.mem_map_of_mem weight hw
    exact sorted_le_getLast s0 hs0ne (List.sorted_insertionSort (· ≤ ·) _)
      (weight w) hmem

/-- C7 counterexample: on the empty code, choose_codewords_by_bit_sum with
high = -1 indexes `[-1]` into the empty histogram and raises IndexError
(returns `none`) instead of returning the empty set. -/
theorem C7_counterexample :
    choose_codewords_by_bit_sum (Binary_code.mk 3 []) 0 (-1) = none := by
  decide

/-- C7 (corrected): for every nonempty code and every lower bound, high = -1
is treated as unbounded and exactly the members of weight at least `low` are
returned; on the empty code the call raises instead. -/
theorem C7_choose_bit_sum_unbounded (c : Binary_code) (low : Int)
    (h : c.codewords ≠ []) :
    ∃ s, choose_codewords_by_bit_sum c low (-1) = some s ∧
      ∀ w, w ∈ s ↔ (w ∈ c.codewords ∧ low ≤ (weight w : Int)) := by
  obtain ⟨M, cnt, hlast, hM⟩ := bit_sum_counts_max c h
  refine ⟨c.codewords.filter
    (fun w => decide (low ≤ (weight w : Int)) && decide ((weight w : Int) ≤ (M : Int))),
    ?_, ?_⟩
  · rw [choose_codewords_by_bit_sum, if_pos rfl, hlast]
    rfl
  · intro w
    simp only [List.mem_filter, Bool.and_eq_true, decide_eq_true_eq]
    constructor
    · rintro ⟨hw, hlow, _⟩
      exact ⟨hw, hlow⟩
    · rintro ⟨hw, hlow⟩
      refine ⟨hw, hlow, ?_⟩
      exact_mod_cast hM w hw

/-- Witness for C7 on a concrete nonempty code with low = 1. -/
theorem C7_choose_bit_sum_unbounded_witness :
    (Binary_code.mk 2 [[true, true], [false, false], [true, false]]).codewords ≠ [] ∧
    ∃ s, choose_codewords_by_bit_sum
        (Binary_code.mk 2 [[true, true], [false, false], [true, false]]) 1 (-1) =
          some s ∧
      ∀ w, w ∈ s ↔
        (w ∈ (Binary_code.mk 2 [[true, true], [false, false], [true, false]]).codewords ∧
          1 ≤ (weight w : Int)) :=
  ⟨by decide, C7_choose_bit_sum_unbounded _ 1 (by decide)⟩

/-! ## Theorems about add_parity_bit (C5) -/

theorem hammingWt_mod_two :
    ∀ (a b : Codeword), a.length = b.length →
      hammingWt a b % 2 = (weight a + weight b) % 2 := by
  intro a
  induction a with
  | nil => intro b h; cases b <;> simp_all [hammingWt, weight]
  | cons x xs ih =>
    intro b h
    cases b with
    | nil => simp at h
    | cons y ys =>
      simp only [List.length_cons, Nat.succ_inj] at h
      have hih := ih ys h
      simp only [hammingWt, weight, List.zipWith_cons_cons, List.count_cons] at hih ⊢
      cases x <;> cases y <;> simp <;> omega

theorem hammingWt_append (a b u v : Codeword) (h : a.length = b.length) :
    hammingWt (a ++ u) (b ++ v) = hammingWt a b + hammingWt u v := by
  unfold hammingWt weight
  rw [List.zipWith_append _ _ _ _ _ h, List.count_append]

theorem parity_even (wx wy : Codeword) (h : wx.length = wy.length) :
    hammingWt (wx ++ [weight wx % 2 == 1]) (wy ++ [weight wy % 2 == 1]) % 2
      = 0 := by
  rw [hammingWt_append wx wy _ _ h]
  have hm := hammingWt_mod_two wx wy h
  have hsingle : ∀ (b1 b2 : Bool),
      hammingWt [b1] [b2] = if b1 = b2 then 0 else 1 := by decide
  rcases Nat.mod_two_eq_zero_or_one (weight wx) with hwx | hwx <;>
    rcases Nat.mod_two_eq_zero_or_one (weight wy) with hwy | hwy <;>
      rw [hsingle] <;> simp [hwx, hwy] <;> omega

theorem setInsert_mem (l : List Codeword) (w x : Codeword) :
    x ∈ setInsert l w ↔ (x ∈ l ∨ x = w) := by
  unfold setInsert
  by_cases hw : w ∈ l
  · rw [if_pos hw]
    constructor
    · exact Or.inl
    · rintro (hx | rfl)
      · exact hx
      · exact hw
  · rw [if_neg hw]
    constructor
    · intro hx
      rcases List.mem_cons.mp hx with hxw | hx2
      · exact Or.inr hxw
      · exact Or.inl hx2
    · rintro (hx | rfl)
      · exact List.mem_cons_of_mem _ hx
      · exact List.mem_cons_self _ _

theorem setInsert_nodup (l : List Codeword) (w : Codeword) (h : l.Nodup) :
    (setInsert l w).Nodup := by
  unfold setInsert
  by_cases hw : w ∈ l
  · rw [if_pos hw]; exact h
  · rw [if_neg hw]; exact List.nodup_cons.mpr ⟨hw, h⟩

theorem foldl_setInsert_mem :
    ∀ (ws acc : List Codeword) (x : Codeword),
      x ∈ ws.foldl setInsert acc ↔ (x ∈ acc ∨ x ∈ ws) := by
  intro ws
  induction ws with
  | nil => intro acc x; simp
  | cons w t ih =>
    intro acc x
    rw [List.foldl_cons, ih, setInsert_mem]
    simp only [List.mem_cons]
    tauto

theorem foldl_setInsert_nodup :
    ∀ (ws acc : List Codeword), acc.Nodup → (ws.foldl setInsert acc).Nodup := by
  intro ws
  induction ws with
  | nil => intro acc h; exact h
  | cons w t ih =>
    intro acc h
    exact ih _ (setInsert_nodup acc w h)

theorem foldl_setInsert_length :
    ∀ (ws acc : List Codeword), ws.Nodup → (∀ w ∈ ws, w ∉ acc) →
      (ws.foldl setInsert acc).length = acc.length + ws.length := by
  intro ws
  induction ws with
  | nil => intro acc _ _; rfl
  | cons w t ih =>
    intro acc hnd hdis
    have hw : w ∉ acc := hdis w (List.mem_cons_self w t)
    rw [List.foldl_cons]
    have hins : setInsert acc w = w :: acc := if_neg hw
    rw [hins, ih (w :: acc) (List.nodup_cons.mp hnd).2]
    · simp only [List.length_cons]
      omega
    · intro x hx
      rw [List.mem_cons]
      rintro (hxw | hxacc)
      · exact (List.nodup_cons.mp hnd).1 (hxw ▸ hx)
      · exact hdis x (List.mem_cons_of_mem w hx) hxacc

theorem foldlM_add_map_eq {α : Type} (f : α → Codeword) :
    ∀ (ws : List α) (c0 : Binary_code),
      (∀ w ∈ ws, (f w).length = c0.length) →
      ws.foldlM (fun nc w => nc.add (f w)) c0 =
        some (Binary_code.mk c0.length
          ((ws.map f).foldl setInsert c0.codewords)) := by
  intro ws
  induction ws with
  | nil => intro c0 h; rfl
  | cons w t ih =>
    intro c0 h
    rw [List.foldlM_cons]
    have hstep : c0.add (f w) =
        some (Binary_code.mk c0.length (setInsert c0.codewords (f w))) := by
      rw [Binary_code.add, if_pos (h w (List.mem_cons_self w t))]
    rw [hstep]
    simp only [Option.bind_eq_bind, Option.some_bind]
    have hih := ih (Binary_code.mk c0.length (setInsert c0.codewords (f w)))
      (fun x hx => h x (List.mem_cons_of_mem w hx))
    rw [hih]
    rfl

theorem parity_append_injective :
    Function.Injective (fun w : Codeword => w ++ [weight w % 2 == 1]) := by
  intro a b hab
  simp only at hab
  have hl : a.length = b.length := by
    have hc := congrArg List.length hab
    simp only [List.length_append, List.length_cons, List.length_nil] at hc
    omega
  exact (List.append_inj hab hl).1

/-- C5: add_parity_bit preserves the codeword count, produces a (again
well-formed) code of length L+1, and makes every pairwise Hamming distance
even. -/
theorem C5_add_parity_bit (c : Binary_code) (h : c.WF) : paritySpec c := by
  obtain ⟨hnd, hlen⟩ := h
  have hf : ∀ w ∈ c.codewords,
      ((fun w : Codeword => w ++ [weight w % 2 == 1]) w).length =
        (Binary_code.mk (c.length + 1) []).length := by
    intro w hw
    simp [List.length_append, hlen w hw]
  have heq := foldlM_add_map_eq (fun w => w ++ [weight w % 2 == 1]) c.codewords
    (Binary_code.mk (c.length + 1) []) hf
  have hmapnd : (c.codewords.map
      (fun w : Codeword => w ++ [weight w % 2 == 1])).Nodup :=
    hnd.map parity_append_injective
  refine ⟨_, by rw [add_parity_bit]; exact heq, ?_, rfl, ⟨?_, ?_⟩, ?_⟩
  · show ((c.codewords.map _).foldl setInsert []).length = c.codewords.length
    rw [foldl_setInsert_length _ [] hmapnd (by intro w _; exact List.not_mem_nil w)]
    simp
  · exact foldl_setInsert_nodup _ [] List.nodup_nil
  · intro w hw
    rw [foldl_setInsert_mem] at hw
    rcases hw with hw | hw
    · exact absurd hw (List.not_mem_nil w)
    · obtain ⟨v, hv, rfl⟩ := List.mem_map.mp hw
      simp [List.length_append, hlen v hv]
  · intro x hx y hy
    rw [foldl_setInsert_mem] at hx hy
    rcases hx with hx | hx
    · exact absurd hx (List.not_mem_nil x)
    rcases hy with hy | hy
    · exact absurd hy (List.not_mem_nil y)
    obtain ⟨vx, hvx, rfl⟩ := List.mem_map.mp hx
    obtain ⟨vy, hvy, rfl⟩ := List.mem_map.mp hy
    exact parity_even vx vy ((hlen vx hvx).trans (hlen vy hvy).symm)

/-- Witness for C5 on the spec's example code of length 2. -/
theorem C5_add_parity_bit_witness :
    (Binary_code.mk 2
      [[true, true], [true, false], [false, true], [false, false]]).WF ∧
    paritySpec (Binary_code.mk 2
      [[true, true], [true, false], [false, true], [false, false]]) :=
  ⟨by decide, C5_add_parity_bit _ (by decide)⟩

/-! ## Theorems about the generator-matrix construction (C2) -/

theorem encodeWord_length (x : List Nat) (G : List (List Nat)) :
    (encodeWord x G).length = matCols G := by
  simp [encodeWord, vecMatMul]

/-- C2 counterexample: the 1-by-1 zero generator matrix [[0]] yields a code
with a single codeword (both inputs produce the all-zero word, which
collapses in the codeword set), not 2^1 = 2 codewords as claimed. -/
theorem C2_counterexample :
    ¬ ((get_code_from_generator_matrix 1 [[0]]).map (fun c => c.size) =
        some (2 ^ 1)) := by decide

/-- C2 (corrected): when the declared length matches the column count the
construction succeeds, the codeword set is exactly the set of products
x·G mod 2 over all 2^k inputs, and it has exactly 2^k members provided
distinct inputs encode to distinct codewords (G of full row rank over
GF(2)); duplicates collapse in the set otherwise. -/
theorem C2_generator_matrix (L : Nat) (G : List (List Nat))
    (hL : L = matCols G)
    (hinj : ∀ x < 2 ^ G.length, ∀ y < 2 ^ G.length,
      encodeWord (natToBits G.length x) G =
          encodeWord (natToBits G.length y) G → x = y) :
    ∃ c, get_code_from_generator_matrix L G = some c ∧
      c.size = 2 ^ G.length ∧ c.length = L ∧
      (∀ w, w ∈ c.codewords ↔
        ∃ x, x < 2 ^ G.length ∧ w = encodeWord (natToBits G.length x) G) := by
  have hlen : ∀ x ∈ List.range (2 ^ G.length),
      (encodeWord (natToBits G.length x) G).length =
        (Binary_code.mk L []).length := by
    intro x _
    rw [encodeWord_length]
    exact hL.symm
  have heq := foldlM_add_map_eq (fun x => encodeWord (natToBits G.length x) G)
    (List.range (2 ^ G.length)) (Binary_code.mk L []) hlen
  have hmapnd : ((List.range (2 ^ G.length)).map
      (fun x => encodeWord (natToBits G.length x) G)).Nodup := by
    refine List.Nodup.map_on ?_ (List.nodup_range _)
    intro x hx y hy hxy
    exact hinj x (List.mem_range.mp hx) y (List.mem_range.mp hy) hxy
  refine ⟨Binary_code.mk L (((List.range (2 ^ G.length)).map
      (fun x => encodeWord (natToBits G.length x) G)).foldl setInsert []),
    ?_, ?_, rfl, ?_⟩
  · rw [get_code_from_generator_matrix, if_pos hL]
    exact heq
  · show (((List.range (2 ^ G.length)).map
      (fun x => encodeWord (natToBits G.length x) G)).foldl setInsert []).length =
      2 ^ G.length
    rw [foldl_setInsert_length _ [] hmapnd (by intro w _; exact List.not_mem_nil w)]
    simp
  · intro w
    show w ∈ ((List.range (2 ^ G.length)).map
      (fun x => encodeWord (natToBits G.length x) G)).foldl setInsert [] ↔ _
    rw [foldl_setInsert_mem]
    constructor
    · rintro (hw | hw)
      · exact absurd hw (List.not_mem_nil w)
      · obtain ⟨x, hx, rfl⟩ := List.mem_map.mp hw
        exact ⟨x, List.mem_range.mp hx, rfl⟩
    · rintro ⟨x, hx, rfl⟩
      exact Or.inr (List.mem_map.mpr ⟨x, List.mem_range.mpr hx, rfl⟩)

/-- Witness for C2 on the identity 1-by-1 generator matrix. -/
theorem C2_generator_matrix_witness :
    (1 = matCols [[1]] ∧
      ∀ x < 2 ^ ([[1]] : List (List Nat)).length,
        ∀ y < 2 ^ ([[1]] : List (List Nat)).length,
        encodeWord (natToBits ([[1]] : List (List Nat)).length x) [[1]] =
            encodeWord (natToBits ([[1]] : List (List Nat)).length y) [[1]] →
          x = y) ∧
    (∃ c, get_code_from_generator_matrix 1 [[1]] = some c ∧
      c.size = 2 ^ ([[1]] : List (List Nat)).length ∧ c.length = 1 ∧
      (∀ w, w ∈ c.codewords ↔
        ∃ x, x < 2 ^ ([[1]] : List (List Nat)).length ∧
          w = encodeWord (natToBits ([[1]] : List (List Nat)).length x) [[1]])) :=
  ⟨⟨by decide, by decide⟩, C2_generator_matrix 1 [[1]] (by decide) (by decide)⟩

/-! ## Theorems about clonality_count_conflicts (C10) and
add_neighbor_nocheck (C9) -/

theorem remove_extreme_state (c : Binary_code) (bit : Bool) :
    (c.remove_extreme_codeword bit).1.length = c.length ∧
    List.replicate c.length bit ∉ (c.remove_extreme_codeword bit).1.codewords ∧
    ∀ w, w ∈ (c.remove_extreme_codeword bit).1.codewords ↔
      (w ∈ c.codewords ∧ w ≠ List.replicate c.length bit) := by
  by_cases hmem : List.replicate c.length bit ∈ c.codewords
  · have hred : (c.remove_extreme_codeword bit).1 =
        Binary_code.mk c.length
          (c.codewords.filter (fun w => w ≠ List.replicate c.length bit)) := by
      simp [Binary_code.remove_extreme_codeword, hmem]
    rw [hred]
    refine ⟨rfl, ?_, ?_⟩
    · intro hc
      have h2 := (List.mem_filter.mp hc).2
      simp at h2
    · intro w
      rw [List.mem_filter]
      simp
  · have hred : (c.remove_extreme_codeword bit).1 = c := by
      simp [Binary_code.remove_extreme_codeword, hmem]
    rw [hred]
    refine ⟨rfl, hmem, ?_⟩
    intro w
    constructor
    · intro hw
      refine ⟨hw, ?_⟩
      intro hc
      exact hmem (hc ▸ hw)
    · exact fun hw => hw.1

/-- C10: clonality_count_conflicts touches the code's state only through
the remove_all_zero_codeword flag: with the flag off the codeword set is
returned untouched, with it on exactly the all-zero codeword (when present)
is removed; the conflict analysis itself only reads the (possibly reduced)
set. -/
theorem C10_clonality_frame (c : Binary_code) (nc : NChanges) (csc rz : Bool) :
    clonalityFrameSpec c nc csc rz := by
  have hstate : (clonality_count_conflicts c nc csc rz).1 =
      (if rz then (c.remove_extreme_codeword false).1 else c) := rfl
  refine ⟨?_, ?_, ?_⟩
  · rw [hstate]
    cases rz
    · rfl
    · simp only [if_true]
      exact (remove_extreme_state c false).1
  · intro h
    subst h
    rw [hstate]
    rfl
  · intro h
    subst h
    rw [hstate]
    simp only [if_true]
    exact ⟨(remove_extreme_state c false).2.1, (remove_extreme_state c false).2.2⟩

/-- Witness for C10 at a concrete code containing the all-zero codeword. -/
theorem C10_clonality_frame_witness :
    clonalityFrameSpec
      (Binary_code.mk 2 [[false, false], [true, false]])
      (NChanges.single 0) true true :=
  C10_clonality_frame (Binary_code.mk 2 [[false, false], [true, false]])
    (NChanges.single 0) true true

/-- C9: the body of Node.add_neighbor_nocheck calls the unqualified name
`add_neighbor`, which resolves neither in the method's local scope nor at
module level, so every call raises NameError (uncaught, since only
GraphNodeError is handled) and the neighbor set is never extended; the
documented "add, or do nothing if present" behaviour (what
Node.add_neighbor would do) is unreachable. -/
theorem C9_add_neighbor_nocheck (nbrs : List Nat) (m : Nat) :
    Node.add_neighbor_nocheck nbrs m = Except.error PyExc.nameError ∧
    (m ∉ nbrs → Node.add_neighbor nbrs m = Except.ok (m :: nbrs)) := by
  constructor
  · rw [Node.add_neighbor_nocheck]
    have hres : ¬ ("add_neighbor" ∈ add_neighbor_nocheck_locals ∨
        "add_neighbor" ∈ graph_clique_find_globals) := by decide
    rw [if_neg hres]
  · intro hm
    rw [Node.add_neighbor, if_neg hm]

/-- Witness for C9 at a concrete neighbor set. -/
theorem C9_add_neighbor_nocheck_witness :
    Node.add_neighbor_nocheck [1, 2] 3 = Except.error PyExc.nameError ∧
    (3 : Nat) ∉ [1, 2] ∧ Node.add_neighbor [1, 2] 3 = Except.ok [3, 1, 2] :=
  ⟨(C9_add_neighbor_nocheck [1, 2] 3).1, by decide,
    (C9_add_neighbor_nocheck [1, 2] 3).2 (by decide)⟩

/-! ## Theorems about give_N_codewords_by_bit_sum (C6) -/

theorem natFoldlMin_le_init :
    ∀ (l : List Nat) (i : Nat), l.foldl min i ≤ i := by
  intro l
  induction l with
  | nil => intro i; exact le_refl i
  | cons a t ih =>
    intro i
    exact le_trans (ih (min i a)) (min_le_left i a)

theorem natFoldlMin_le_mem :
    ∀ (l : List Nat) (i x : Nat), x ∈ l → l.foldl min i ≤ x := by
  intro l
  induction l with
  | nil => intro i x hx; simp at hx
  | cons a t ih =>
    intro i x hx
    rcases List.mem_cons.mp hx with hxa | hxt
    · subst hxa
      exact le_trans (natFoldlMin_le_init t (min i x)) (min_le_right i x)
    · exact ih (min i a) x hxt

theorem natFoldlMax_init_le :
    ∀ (l : List Nat) (i : Nat), i ≤ l.foldl max i := by
  intro l
  induction l with
  | nil => intro i; exact le_refl i
  | cons a t ih =>
    intro i
    exact le_trans (le_max_left i a) (ih (max i a))

theorem natFoldlMax_mem_le :
    ∀ (l : List Nat) (i x : Nat), x ∈ l → x ≤ l.foldl max i := by
  intro l
  induction l with
  | nil => intro i x hx; simp at hx
  | cons a t ih =>
    intro i x hx
    rcases List.mem_cons.mp hx with hxa | hxt
    · subst hxa
      exact le_trans (le_max_right i x) (natFoldlMax_init_le t (max i x))
    · exact ih (max i a) x hxt

/-- The accumulation loop takes some prefix of the histogram; it is nonempty
whenever the histogram is, and either covers at least N codewords or uses
the whole histogram. -/
theorem accumulateBuckets_spec (N : Nat) :
    ∀ (bsc : List (Nat × Nat)) (total : Nat) (acc : List (Nat × Nat)),
      ∃ j, accumulateBuckets N bsc total acc = acc ++ bsc.take j ∧
        (bsc ≠ [] → 1 ≤ j) ∧
        (N ≤ total + ((bsc.take j).map Prod.snd).sum ∨ bsc.take j = bsc) := by
  intro bsc
  induction bsc with
  | nil =>
    intro total acc
    exact ⟨0, by simp [accumulateBuckets], fun h => absurd rfl h, Or.inr rfl⟩
  | cons b rest ih =>
    intro total acc
    obtain ⟨w, cnt⟩ := b
    by_cases hbr : N ≤ total + cnt
    · refine ⟨1, ?_, fun _ => le_refl 1, Or.inl ?_⟩
      · rw [accumulateBuckets, if_pos hbr]
        simp
      · simp
        omega
    · obtain ⟨j, hrec, _, hcase⟩ := ih (total + cnt) (acc ++ [(w, cnt)])
      refine ⟨j + 1, ?_, fun _ => by omega, ?_⟩
      · rw [accumulateBuckets, if_neg hbr, hrec]
        simp
      · rcases hcase with hc | hc
        · left
          simp only [List.take_succ_cons, List.map_cons, List.sum_cons]
          omega
        · right
          rw [List.take_succ_cons, hc]

theorem take_ne_nil_of_ne_nil {l : List (Nat × Nat)} {j : Nat}
    (hl : l ≠ []) (hj : 1 ≤ j) : l.take j ≠ [] := by
  cases l with
  | nil => exact absurd rfl hl
  | cons a t =>
    cases j with
    | zero => omega
    | succ j2 => simp

/-- Partition bound: summing the per-weight member counts over distinct
weights that all satisfy `pred` cannot exceed the count of members whose
weight satisfies `pred`. -/
theorem sum_countP_le (pred : Nat → Bool) :
    ∀ (ws : List Nat) (l : List Codeword), ws.Nodup →
      (∀ w ∈ ws, pred w = true) →
      (ws.map (fun w => l.countP (fun cw => weight cw == w))).sum ≤
        l.countP (fun cw => pred (weight cw)) := by
  intro ws
  induction ws with
  | nil => intro l _ _; simp
  | cons w ws' ih =>
    intro l hnd hpred
    simp only [List.map_cons, List.sum_cons]
    have hperm := List.filter_append_perm (fun cw => weight cw == w) l
    have hsplit : l.countP (fun cw => pred (weight cw)) =
        l.countP (fun cw => weight cw == w) +
          (l.filter (fun cw => !(weight cw == w))).countP
            (fun cw => pred (weight cw)) := by
      calc l.countP (fun cw => pred (weight cw))
          = ((l.filter (fun cw => weight cw == w)) ++
              (l.filter (fun cw => !(weight cw == w)))).countP
                (fun cw => pred (weight cw)) := (hperm.countP_eq _).symm
        _ = (l.filter (fun cw => weight cw == w)).countP
              (fun cw => pred (weight cw)) +
            (l.filter (fun cw => !(weight cw == w))).countP
              (fun cw => pred (weight cw)) := List.countP_append _ _ _
        _ = l.countP (fun cw => weight cw == w) +
            (l.filter (fun cw => !(weight cw == w))).countP
              (fun cw => pred (weight cw)) := by
              congr 1
              rw [List.countP_filter]
              apply List.countP_congr
              intro cw _
              constructor
              · intro hc
                exact (Bool.and_eq_true _ _ ▸ hc).2
              · intro hc
                have hcw : weight cw = w := by simpa using hc
                rw [Bool.and_eq_true]
                refine ⟨?_, hc⟩
                rw [hcw]
                exact hpred w (List.mem_cons_self w ws')
    have hcongr : ∀ w2 ∈ ws',
        (l.filter (fun cw => !(weight cw == w))).countP
            (fun cw => weight cw == w2) =
          l.countP (fun cw => weight cw == w2) := by
      intro w2 hw2
      have hne : w2 ≠ w := by
        intro hc
        exact (List.nodup_cons.mp hnd).1 (hc ▸ hw2)
      rw [List.countP_filter]
      apply List.countP_congr
      intro cw _
      constructor
      · intro hc
        exact (Bool.and_eq_true _ _ ▸ hc).1
      · intro hc
        have hcw : weight cw = w2 := by simpa using hc
        rw [Bool.and_eq_true]
        refine ⟨hc, ?_⟩
        simp [hcw, hne]
    have hmapeq : ws'.map (fun w2 => l.countP (fun cw => weight cw == w2)) =
        ws'.map (fun w2 => (l.filter (fun cw => !(weight cw == w))).countP
          (fun cw => weight cw == w2)) :=
      List.map_congr_left (fun w2 hw2 => (hcongr w2 hw2).symm)
    rw [hmapeq, hsplit]
    have hih := ih (l.filter (fun cw => !(weight cw == w)))
      (List.nodup_cons.mp hnd).2
      (fun w2 hw2 => hpred w2 (List.mem_cons_of_mem w hw2))
    omega

/-- Partition identity: summing the per-weight member counts over distinct
weights covering every member gives the total member count. -/
theorem sum_countP_eq :
    ∀ (ws : List Nat) (l : List Codeword), ws.Nodup →
      (∀ x ∈ l, weight x ∈ ws) →
      (ws.map (fun w => l.countP (fun cw => weight cw == w))).sum = l.length := by
  intro ws
  induction ws with
  | nil =>
    intro l _ hcov
    cases l with
    | nil => simp
    | cons x t => exact absurd (hcov x (List.mem_cons_self x t)) (List.not_mem_nil _)
  | cons w ws' ih =>
    intro l hnd hcov
    simp only [List.map_cons, List.sum_cons]
    have hperm := List.filter_append_perm (fun cw => weight cw == w) l
    have hlen := hperm.length_eq
    rw [List.length_append] at hlen
    have hcongr : ∀ w2 ∈ ws',
        (l.filter (fun cw => !(weight cw == w))).countP
            (fun cw => weight cw == w2) =
          l.countP (fun cw => weight cw == w2) := by
      intro w2 hw2
      have hne : w2 ≠ w := by
        intro hc
        exact (List.nodup_cons.mp hnd).1 (hc ▸ hw2)
      rw [List.countP_filter]
      apply List.countP_congr
      intro cw _
      constructor
      · intro hc
        exact (Bool.and_eq_true _ _ ▸ hc).1
      · intro hc
        have hcw : weight cw = w2 := by simpa using hc
        rw [Bool.and_eq_true]
        refine ⟨hc, ?_⟩
        simp [hcw, hne]
    have hmapeq : ws'.map (fun w2 => l.countP (fun cw => weight cw == w2)) =
        ws'.map (fun w2 => (l.filter (fun cw => !(weight cw == w))).countP
          (fun cw => weight cw == w2)) :=
      List.map_congr_left (fun w2 hw2 => (hcongr w2 hw2).symm)
    rw [hmapeq]
    have hih := ih (l.filter (fun cw => !(weight cw == w)))
      (List.nodup_cons.mp hnd).2 ?_
    · rw [hih, List.countP_eq_length_filter]
      omega
    · intro x hx
      have hx2 := List.mem_filter.mp hx
      have hne : weight x ≠ w := by simpa using hx2.2
      rcases List.mem_cons.mp (hcov x hx2.1) with hcw | hcw
      · exact absurd hcw hne
      · exact hcw

theorem find_bit_sum_counts_ne_nil (c : Binary_code) (h : c.codewords ≠ []) :
    find_bit_sum_counts c ≠ [] := by
  obtain ⟨M, cnt, hlast, _⟩ := bit_sum_counts_max c h
  intro hc
  rw [hc] at hlast
  simp at hlast

theorem find_bit_sum_counts_fst (c : Binary_code) :
    (find_bit_sum_counts c).map Prod.fst =
      List.insertionSort (· ≤ ·) (c.codewords.map weight).dedup := by
  rw [find_bit_sum_counts, List.map_map]
  simp [Function.comp_def]

theorem find_bit_sum_counts_fst_nodup (c : Binary_code) :
    ((find_bit_sum_counts c).map Prod.fst).Nodup := by
  rw [find_bit_sum_counts_fst]
  exact (List.perm_insertionSort (· ≤ ·) _).nodup_iff.mpr (List.nodup_dedup _)

theorem find_bit_sum_counts_entry (c : Binary_code) (b : Nat × Nat)
    (hb : b ∈ find_bit_sum_counts c) :
    b.2 = c.codewords.countP (fun cw => weight cw == b.1) := by
  rw [find_bit_sum_counts] at hb
  obtain ⟨w, _, rfl⟩ := List.mem_map.mp hb
  rfl

theorem hist_snd_sum (c : Binary_code) :
    ((find_bit_sum_counts c).map Prod.snd).sum = c.codewords.length := by
  rw [find_bit_sum_counts, List.map_map]
  have hcomp : (Prod.snd ∘ fun w =>
      (w, c.codewords.countP (fun cw => weight cw == w))) =
      fun w => c.codewords.countP (fun cw => weight cw == w) := rfl
  rw [hcomp]
  apply sum_countP_eq
  · exact (List.perm_insertionSort (· ≤ ·) _).nodup_iff.mpr (List.nodup_dedup _)
  · intro x hx
    rw [(List.perm_insertionSort (· ≤ ·) _).mem_iff, List.mem_dedup]
    exact List.mem_map_of_mem weight hx

theorem biasedPick_valid : ValidPick biasedPick := by
  intro l n hn
  have hperm := List.filter_append_perm (fun w => decide (w ≠ [false, false])) l
  have hlen : (l.filter (fun w => decide (w ≠ [false, false])) ++
      l.filter (fun w => !(decide (w ≠ [false, false])))).length = l.length :=
    hperm.length_eq
  refine ⟨?_, ?_, ?_⟩
  · rw [biasedPick, List.length_take, hlen]
    omega
  · intro hnd
    exact List.Nodup.sublist (List.take_sublist _ _)
      (hperm.nodup_iff.mpr hnd)
  · intro w hw
    have hw2 := (List.take_sublist _ _).subset hw
    exact hperm.subset hw2

/-- C6 counterexample: on the 2-bit code {00, 01, 10} with N = 2 and
take_high = False, the weight-0 bucket (0, 1) lies strictly before the final
bucket (1, 2) in the accumulation order, yet an admissible outcome of the
random sample from the pooled range omits the codeword 00 of the earlier
bucket: random.sample draws from the whole accumulated range, not only from
the final bucket. -/
theorem C6_counterexample :
    ValidPick biasedPick ∧
    accumulateBuckets 2 (sortedHistogram
      (Binary_code.mk 2 [[false, false], [false, true], [true, false]]) false)
      0 [] = [(0, 1), (1, 2)] ∧
    give_N_codewords_by_bit_sum biasedPick
      (Binary_code.mk 2 [[false, false], [false, true], [true, false]]) 2 false =
      some [[false, true], [true, false]] ∧
    [false, false] ∈
      (Binary_code.mk 2 [[false, false], [false, true], [true, false]]).codewords ∧
    weight [false, false] = 0 ∧
    [false, false] ∉ [[false, true], [true, false]] :=
  ⟨biasedPick_valid, by decide, by decide, by decide, by decide, by decide⟩

/-- C6 (corrected): for every valid sampler, well-formed nonempty code and
N within the code size, the call succeeds; the result is N distinct member
codewords whose weights all lie in the accumulated bit-sum range, i.e. the
sample is drawn from the union of all used buckets, with no inclusion
guarantee for the earlier buckets. -/
theorem C6_give_N_by_bit_sum (pick : List Codeword → Nat → List Codeword)
    (c : Binary_code) (N : Nat) (th : Bool)
    (hpick : ValidPick pick) (hwf : c.WF) (hcne : c.codewords ≠ [])
    (hN : N ≤ c.size) : giveNSpec pick c N th := by
  obtain ⟨hnd, hlenc⟩ := hwf
  have hhist_ne := find_bit_sum_counts_ne_nil c hcne
  have hbscne : sortedHistogram c th ≠ [] := by
    rw [sortedHistogram]
    cases th
    · simpa using hhist_ne
    · simpa using hhist_ne
  have hbscmem : ∀ b ∈ sortedHistogram c th, b ∈ find_bit_sum_counts c := by
    intro b hb
    rw [sortedHistogram] at hb
    cases th
    · simpa using hb
    · simpa using hb
  have hbscfstnd : ((sortedHistogram c th).map Prod.fst).Nodup := by
    rw [sortedHistogram]
    cases th
    · simpa using find_bit_sum_counts_fst_nodup c
    · simp only [if_true, List.map_reverse]
      exact List.nodup_reverse.mpr (find_bit_sum_counts_fst_nodup c)
  have hbscsum : ((sortedHistogram c th).map Prod.snd).sum =
      c.codewords.length := by
    rw [sortedHistogram]
    cases th
    · simpa using hist_snd_sum c
    · simp only [if_true, List.map_reverse, List.sum_reverse]
      exact hist_snd_sum c
  obtain ⟨j, hacc, hj1, hcase⟩ :=
    accumulateBuckets_spec N (sortedHistogram c th) 0 []
  rw [List.nil_append] at hacc
  have husene : (sortedHistogram c th).take j ≠ [] :=
    take_ne_nil_of_ne_nil hbscne (hj1 hbscne)
  obtain ⟨u, us, huses⟩ := List.exists_cons_of_ne_nil husene
  have husesfst : ∀ x ∈ (u :: us).map Prod.fst,
      (us.map Prod.fst).foldl min u.1 ≤ x ∧
      x ≤ (us.map Prod.fst).foldl max u.1 := by
    intro x hx
    rw [List.map_cons] at hx
    rcases List.mem_cons.mp hx with hxa | hxt
    · subst hxa
      exact ⟨natFoldlMin_le_init _ _, natFoldlMax_init_le _ _⟩
    · exact ⟨natFoldlMin_le_mem _ _ x hxt, natFoldlMax_mem_le _ _ x hxt⟩
  have hentry : ∀ b ∈ u :: us,
      b.2 = c.codewords.countP (fun cw => weight cw == b.1) := by
    intro b hb
    apply find_bit_sum_counts_entry c
    apply hbscmem
    have hb2 : b ∈ (sortedHistogram c th).take j := by rw [huses]; exact hb
    exact (List.take_sublist j _).subset hb2
  have husesfstnd : ((u :: us).map Prod.fst).Nodup := by
    rw [← huses, List.map_take]
    exact List.Nodup.sublist (List.take_sublist _ _) hbscfstnd
  have hsumuses : N ≤ (((u :: us).map Prod.fst).map
      (fun w => c.codewords.countP (fun cw => weight cw == w))).sum := by
    have hmapsnd : (u :: us).map Prod.snd =
        ((u :: us).map Prod.fst).map
          (fun w => c.codewords.countP (fun cw => weight cw == w)) := by
      rw [List.map_map]
      exact List.map_congr_left (fun b hb => hentry b hb)
    rw [← hmapsnd]
    rcases hcase with hc | hc
    · rw [huses] at hc
      omega
    · have h2 : u :: us = sortedHistogram c th := by rw [← huses, hc]
      rw [h2, hbscsum]
      exact hN
  have hhine2 : ¬ ((((us.map Prod.fst).foldl max u.1 : Nat) : Int) = -1) := by
    omega
  have hpool : choose_codewords_by_bit_sum c
      ((((us.map Prod.fst).foldl min u.1 : Nat) : Int))
      ((((us.map Prod.fst).foldl max u.1 : Nat) : Int)) =
      some (c.codewords.filter (fun w =>
        decide ((((us.map Prod.fst).foldl min u.1 : Nat) : Int) ≤ (weight w : Int)) &&
        decide ((weight w : Int) ≤ (((us.map Prod.fst).foldl max u.1 : Nat) : Int)))) := by
    rw [choose_codewords_by_bit_sum, if_neg hhine2]
  have hpoolnd : (c.codewords.filter (fun w =>
      decide ((((us.map Prod.fst).foldl min u.1 : Nat) : Int) ≤ (weight w : Int)) &&
      decide ((weight w : Int) ≤ (((us.map Prod.fst).foldl max u.1 : Nat) : Int)))).Nodup :=
    hnd.filter _
  have hpoollen : N ≤ (c.codewords.filter (fun w =>
      decide ((((us.map Prod.fst).foldl min u.1 : Nat) : Int) ≤ (weight w : Int)) &&
      decide ((weight w : Int) ≤ (((us.map Prod.fst).foldl max u.1 : Nat) : Int)))).length := by
    have h1 : (c.codewords.filter (fun w =>
        decide ((((us.map Prod.fst).foldl min u.1 : Nat) : Int) ≤ (weight w : Int)) &&
        decide ((weight w : Int) ≤ (((us.map Prod.fst).foldl max u.1 : Nat) : Int)))).length =
        c.codewords.countP (fun cw =>
          decide (((us.map Prod.fst).foldl min u.1 : Nat) ≤ weight cw) &&
          decide (weight cw ≤ ((us.map Prod.fst).foldl max u.1 : Nat))) := by
      rw [← List.countP_eq_length_filter]
      apply List.countP_congr
      intro cw _
      simp only [Bool.and_eq_true, decide_eq_true_eq, Nat.cast_le]
    have h2 := sum_countP_le (fun w2 =>
        decide (((us.map Prod.fst).foldl min u.1 : Nat) ≤ w2) &&
        decide (w2 ≤ ((us.map Prod.fst).foldl max u.1 : Nat)))
      ((u :: us).map Prod.fst) c.codewords husesfstnd ?_
    · have h2b : (((u :: us).map Prod.fst).map
          (fun w => c.codewords.countP (fun cw => weight cw == w))).sum ≤
          c.codewords.countP (fun cw =>
            decide (((us.map Prod.fst).foldl min u.1 : Nat) ≤ weight cw) &&
            decide (weight cw ≤ ((us.map Prod.fst).foldl max u.1 : Nat))) := h2
      rw [h1]
      omega
    · intro w2 hw2
      obtain ⟨hl2, hh2⟩ := husesfst w2 hw2
      simp [hl2, hh2]
  have hout : give_N_codewords_by_bit_sum pick c N th =
      some (pick (c.codewords.filter (fun w =>
        decide ((((us.map Prod.fst).foldl min u.1 : Nat) : Int) ≤ (weight w : Int)) &&
        decide ((weight w : Int) ≤ (((us.map Prod.fst).foldl max u.1 : Nat) : Int)))) N) := by
    rw [give_N_codewords_by_bit_sum, if_neg (by omega : ¬ c.size < N), hacc,
      huses]
    simp only []
    rw [hpool]
    rfl
  obtain ⟨hplen, hpnodup, hpmem⟩ := hpick _ N hpoollen
  refine ⟨_, u, us, hacc.trans huses, hout, hplen, hpnodup hpoolnd, ?_⟩
  intro w hw
  have hwp := hpmem w hw
  have hwf2 := List.mem_filter.mp hwp
  have hcond := hwf2.2
  simp only [Bool.and_eq_true, decide_eq_true_eq, Nat.cast_le] at hcond
  exact ⟨hwf2.1, hcond.1, hcond.2⟩

/-- Witness for C6 at a concrete code and the first-N sampler. -/
theorem C6_give_N_by_bit_sum_witness :
    ValidPick (fun l n => l.take n) ∧
    (Binary_code.mk 2 [[false, false], [false, true], [true, false]]).WF ∧
    (Binary_code.mk 2 [[false, false], [false, true], [true, false]]).codewords ≠ [] ∧
    2 ≤ (Binary_code.mk 2 [[false, false], [false, true], [true, false]]).size ∧
    giveNSpec (fun l n => l.take n)
      (Binary_code.mk 2 [[false, false], [false, true], [true, false]]) 2 false := by
  have hvp : ValidPick (fun l n => l.take n) := by
    intro l n hn
    refine ⟨?_, ?_, ?_⟩
    · rw [List.length_take]
      omega
    · intro hnd
      exact List.Nodup.sublist (List.take_sublist _ _) hnd
    · intro w hw
      exact (List.take_sublist _ _).subset hw
  exact ⟨hvp, by decide, by decide, by decide,
    C6_give_N_by_bit_sum _ _ 2 false hvp (by decide) (by decide) (by decide)⟩

/-! ## Theorems about remove_node / add_node_with_neighbors (C8) -/

theorem filter_ne_length {l : List Nat} {n : Nat} (hnd : l.Nodup)
    (hn : n ∈ l) : (l.filter (fun x => x ≠ n)).length + 1 = l.length := by
  induction l with
  | nil => simp at hn
  | cons a t ih =>
    by_cases han : a = n
    · subst han
      have hna2 : a ∉ t := (List.nodup_cons.mp hnd).1
      have hft : t.filter (fun x => x ≠ a) = t := by
        apply List.filter_eq_self.mpr
        intro x hx
        simp only [ne_eq, decide_eq_true_eq]
        intro hc
        exact hna2 (hc ▸ hx)
      rw [List.filter_cons_of_neg (by simp)]
      rw [hft]
      rfl
    · have hnt : n ∈ t := by
        rcases List.mem_cons.mp hn with h | h
        · exact absurd h.symm han
        · exact h
      rw [List.filter_cons_of_pos (by simp [han])]
      simp only [List.length_cons]
      rw [← ih (List.nodup_cons.mp hnd).2 hnt]

/-- C8: removing a node while keeping its neighbor record and then adding
it back restores the graph exactly (same node membership, size, neighbor
sets and degrees). -/
theorem C8_remove_add_restores (g : Graph) (n : Nat) (hwf : g.WF)
    (hn : n ∈ g.nodes) : restoreSpec g n := by
  obtain ⟨hnodesnd, hnbrnd, hclosed, hirr, hsym⟩ := hwf
  have hrecord : (g.removeNode n true).nbrs n = g.nbrs n := by
    simp [Graph.removeNode]
  have haddn : ((g.removeNode n true).addNodeWithNeighbors n).nbrs n =
      g.nbrs n := by
    simp [Graph.addNodeWithNeighbors, hrecord]
  have hother : ∀ x, x ≠ n → x ∉ g.nbrs n →
      ((g.removeNode n true).addNodeWithNeighbors n).nbrs x = g.nbrs x := by
    intro x hxn hxnb
    have h1 : (g.removeNode n true).nbrs x = g.nbrs x := by
      simp [Graph.removeNode, hxn, hxnb]
    rw [Graph.addNodeWithNeighbors]
    simp [hxn, hrecord, hxnb, h1]
  have hnbrx : ∀ x, x ≠ n → x ∈ g.nbrs n →
      ((g.removeNode n true).addNodeWithNeighbors n).nbrs x =
        n :: (g.nbrs x).filter (fun y => y ≠ n) := by
    intro x hxn hxnb
    have h1 : (g.removeNode n true).nbrs x =
        (g.nbrs x).filter (fun y => y ≠ n) := by
      simp [Graph.removeNode, hxn, hxnb]
    rw [Graph.addNodeWithNeighbors]
    simp [hxn, hrecord, hxnb, h1]
  have hnodes2 : ((g.removeNode n true).addNodeWithNeighbors n).nodes =
      n :: g.nodes.filter (fun x => x ≠ n) := rfl
  refine ⟨?_, ?_, ?_, ?_⟩
  · intro x
    rw [hnodes2, List.mem_cons, List.mem_filter]
    constructor
    · rintro (hxa | hx2)
      · exact hxa ▸ hn
      · exact hx2.1
    · intro hx
      by_cases hxn : x = n
      · exact Or.inl hxn
      · exact Or.inr ⟨hx, by simp [hxn]⟩
  · show ((g.removeNode n true).addNodeWithNeighbors n).nodes.length =
      g.nodes.length
    rw [hnodes2, List.length_cons]
    exact filter_ne_length hnodesnd hn
  · intro x y
    by_cases hxn : x = n
    · subst hxn
      rw [haddn]
    · by_cases hxnb : x ∈ g.nbrs n
      · rw [hnbrx x hxn hxnb]
        have hxnode : x ∈ g.nodes := hclosed n hn x hxnb
        have hnx : n ∈ g.nbrs x := (hsym n hn x hxnode).mp hxnb
        rw [List.mem_cons, List.mem_filter]
        constructor
        · rintro (hya | hy2)
          · exact hya ▸ hnx
          · exact hy2.1
        · intro hy
          by_cases hyn : y = n
          · exact Or.inl hyn
          · exact Or.inr ⟨hy, by simp [hyn]⟩
      · rw [hother x hxn hxnb]
  · intro x
    show (((g.removeNode n true).addNodeWithNeighbors n).nbrs x).length =
      (g.nbrs x).length
    by_cases hxn : x = n
    · subst hxn
      rw [haddn]
    · by_cases hxnb : x ∈ g.nbrs n
      · rw [hnbrx x hxn hxnb, List.length_cons]
        have hxnode : x ∈ g.nodes := hclosed n hn x hxnb
        have hnx : n ∈ g.nbrs x := (hsym n hn x hxnode).mp hxnb
        exact filter_ne_length (hnbrnd x hxnode) hnx
      · rw [hother x hxn hxnb]

/-- Witness for C8 on a concrete path graph 0 - 1 - 2, removing node 1. -/
theorem C8_remove_add_restores_witness :
    (Graph.mk [0, 1, 2] (fun v =>
      if v = 0 then [1] else if v = 1 then [0, 2]
      else if v = 2 then [1] else [])).WF ∧
    1 ∈ (Graph.mk [0, 1, 2] (fun v =>
      if v = 0 then [1] else if v = 1 then [0, 2]
      else if v = 2 then [1] else [])).nodes ∧
    restoreSpec (Graph.mk [0, 1, 2] (fun v =>
      if v = 0 then [1] else if v = 1 then [0, 2]
      else if v = 2 then [1] else [])) 1 :=
  ⟨by decide, by decide, C8_remove_add_restores _ 1 (by decide) (by decide)⟩

/-! ## Theorems about reduce_to_clique (C1) -/

theorem isClique_iff (g : Graph) :
    isClique g = true ↔ ∀ x ∈ g.nodes, g.deg x = g.size - 1 := by
  simp [isClique]

theorem isClique_of_nil {g : Graph} (h : g.nodes = []) : isClique g = true := by
  simp [isClique, h]

theorem clear_nodes (g : Graph) : (g.clear).nodes = [] := rfl

theorem clear_WF (g : Graph) : (g.clear).WF := by
  refine ⟨List.nodup_nil, ?_, ?_, ?_, ?_⟩ <;> simp [Graph.clear]

theorem removeNode_nodes (g : Graph) (n : Nat) (keep : Bool) :
    (g.removeNode n keep).nodes = g.nodes.filter (fun x => x ≠ n) := rfl

theorem removeNode_nbrs_sub {g : Graph} {n : Nat} {keep : Bool} {x y : Nat}
    (hx : x ≠ n) (hy : y ∈ (g.removeNode n keep).nbrs x) : y ∈ g.nbrs x := by
  rw [Graph.removeNode] at hy
  simp only [hx, if_false] at hy
  by_cases hmem : x ∈ g.nbrs n
  · rw [if_pos hmem] at hy
    exact (List.mem_filter.mp hy).1
  · rw [if_neg hmem] at hy
    exact hy

theorem removeNode_nbrs_of {g : Graph} {n : Nat} {keep : Bool} {x y : Nat}
    (hx : x ≠ n) (hy : y ∈ g.nbrs x) (hyn : y ≠ n) :
    y ∈ (g.removeNode n keep).nbrs x := by
  rw [Graph.removeNode]
  simp only [hx, if_false]
  by_cases hmem : x ∈ g.nbrs n
  · rw [if_pos hmem]
    rw [List.mem_filter]
    exact ⟨hy, by simp [hyn]⟩
  · rw [if_neg hmem]
    exact hy

theorem removeNode_nbrs_iff {g : Graph} {n : Nat} {keep : Bool} {x y : Nat}
    (hx : x ≠ n) (hyn : y ≠ n) :
    y ∈ (g.removeNode n keep).nbrs x ↔ y ∈ g.nbrs x :=
  ⟨removeNode_nbrs_sub hx, fun hy => removeNode_nbrs_of hx hy hyn⟩

theorem removeNode_not_nbr {g : Graph} (hwf : g.WF) {n x : Nat}
    {keep : Bool} (hx : x ∈ g.nodes) (hxn : x ≠ n) :
    n ∉ (g.removeNode n keep).nbrs x := by
  obtain ⟨hnd, hnbrnd, hclosed, hirr, hsym⟩ := hwf
  rw [Graph.removeNode]
  simp only [hxn, if_false]
  by_cases hmem : x ∈ g.nbrs n
  · rw [if_pos hmem]
    intro hc
    have := (List.mem_filter.mp hc).2
    simp at this
  · rw [if_neg hmem]
    intro hc
    by_cases hnn : n ∈ g.nodes
    · exact hmem ((hsym x hx n hnn).mp hc)
    · exact hnn (hclosed x hx n hc)

theorem removeNode_WF {g : Graph} (hwf : g.WF) (n : Nat) (keep : Bool) :
    (g.removeNode n keep).WF := by
  have hwf2 := hwf
  obtain ⟨hnd, hnbrnd, hclosed, hirr, hsym⟩ := hwf2
  have hmemnodes : ∀ x, x ∈ (g.removeNode n keep).nodes →
      x ∈ g.nodes ∧ x ≠ n := by
    intro x hx
    rw [removeNode_nodes] at hx
    obtain ⟨h1, h2⟩ := List.mem_filter.mp hx
    exact ⟨h1, by simpa using h2⟩
  refine ⟨?_, ?_, ?_, ?_, ?_⟩
  · rw [removeNode_nodes]
    exact hnd.filter _
  · intro x hx
    obtain ⟨hxg, hxn⟩ := hmemnodes x hx
    rw [Graph.removeNode]
    simp only [hxn, if_false]
    by_cases hmem : x ∈ g.nbrs n
    · rw [if_pos hmem]
      exact (hnbrnd x hxg).filter _
    · rw [if_neg hmem]
      exact hnbrnd x hxg
  · intro x hx m hm
    obtain ⟨hxg, hxn⟩ := hmemnodes x hx
    have hmg : m ∈ g.nbrs x := removeNode_nbrs_sub hxn hm
    have hmn : m ≠ n := by
      intro hc
      exact removeNode_not_nbr hwf hxg hxn (hc ▸ hm)
    rw [removeNode_nodes, List.mem_filter]
    exact ⟨hclosed x hxg m hmg, by simp [hmn]⟩
  · intro x hx
    obtain ⟨hxg, hxn⟩ := hmemnodes x hx
    intro hc
    exact hirr x hxg (removeNode_nbrs_sub hxn hc)
  · intro x hx m hm
    obtain ⟨hxg, hxn⟩ := hmemnodes x hx
    obtain ⟨hmg, hmn⟩ := hmemnodes m hm
    rw [removeNode_nbrs_iff hxn hmn, removeNode_nbrs_iff hmn hxn]
    exact hsym x hxg m hmg

theorem universal_removeNode {g : Graph} {r u : Nat} {keep : Bool}
    (hu : universalIn g r) (hr : r ≠ u) :
    universalIn (g.removeNode u keep) r := by
  intro m hm hmr
  rw [removeNode_nodes] at hm
  obtain ⟨hm2, hmne⟩ := List.mem_filter.mp hm
  exact removeNode_nbrs_of hr (hu m hm2 hmr) (by simpa using hmne)

theorem reqInv_removeNode {g : Graph} {req : List Nat} {u : Nat} {keep : Bool}
    (h : ReqInv g req) : ReqInv (g.removeNode u keep) req := by
  intro r hr hrg
  have hrg2 := hrg
  rw [removeNode_nodes] at hrg2
  obtain ⟨hr2, hrne⟩ := List.mem_filter.mp hrg2
  exact universal_removeNode (h r hr hr2) (by simpa using hrne)

theorem prunePass_props (d : Nat) :
    ∀ (ns : List Nat) (g : Graph),
      ((prunePass d g ns).nodes ⊆ g.nodes) ∧
      ((prunePass d g ns).nodes.length ≤ g.nodes.length) ∧
      (g.WF → (prunePass d g ns).WF) ∧
      (∀ req, ReqInv g req → ReqInv (prunePass d g ns) req) := by
  intro ns
  induction ns with
  | nil =>
    intro g
    exact ⟨fun x hx => hx, le_refl _, id, fun req h => h⟩
  | cons n t ih =>
    intro g
    rw [prunePass]
    by_cases hdeg : g.deg n < d
    · rw [if_pos hdeg]
      have hr := ih (g.removeNode n false)
      refine ⟨?_, ?_, ?_, ?_⟩
      · intro x hx
        have := hr.1 hx
        rw [removeNode_nodes] at this
        exact (List.mem_filter.mp this).1
      · refine le_trans hr.2.1 ?_
        rw [removeNode_nodes]
        exact List.length_filter_le _ _
      · intro hwf
        exact hr.2.2.1 (removeNode_WF hwf n false)
      · intro req h
        exact hr.2.2.2 req (reqInv_removeNode h)
    · rw [if_neg hdeg]
      exact ih g

theorem removeNodesByDegree_props :
    ∀ (k : Nat) (g : Graph) (d : Nat), g.nodes.length ≤ k →
      ((removeNodesByDegree g d).nodes ⊆ g.nodes) ∧
      ((removeNodesByDegree g d).nodes.length ≤ g.nodes.length) ∧
      (g.WF → (removeNodesByDegree g d).WF) ∧
      (∀ req, ReqInv g req → ReqInv (removeNodesByDegree g d) req) := by
  intro k
  induction k with
  | zero =>
    intro g d hk
    have hnil : g.nodes = [] := List.eq_nil_of_length_eq_zero (by omega)
    have hpp : prunePass d g g.nodes = g := by rw [hnil]; rfl
    rw [removeNodesByDegree, dif_neg (by rw [hpp]; omega), hpp]
    exact ⟨fun x hx => hx, le_refl _, id, fun req h => h⟩
  | succ k ih =>
    intro g d hk
    rw [removeNodesByDegree]
    by_cases hlt : (prunePass d g g.nodes).nodes.length < g.nodes.length
    · rw [dif_pos hlt]
      have hp := prunePass_props d g.nodes g
      have hrec := ih (prunePass d g g.nodes) d (by omega)
      refine ⟨fun x hx => hp.1 (hrec.1 hx), le_trans hrec.2.1 hp.2.1,
        fun hwf => hrec.2.2.1 (hp.2.2.1 hwf),
        fun req h => hrec.2.2.2 req (hp.2.2.2 req h)⟩
    · rw [dif_neg hlt]
      exact prunePass_props d g.nodes g

theorem prunePass_id (d : Nat) :
    ∀ (ns : List Nat) (g : Graph), (∀ n ∈ ns, ¬ g.deg n < d) →
      prunePass d g ns = g := by
  intro ns
  induction ns with
  | nil => intro g _; rfl
  | cons n t ih =>
    intro g h
    rw [prunePass, if_neg (h n (List.mem_cons_self n t))]
    exact ih g (fun m hm => h m (List.mem_cons_of_mem n hm))

theorem removeNodesByDegree_id (g : Graph) (d : Nat)
    (h : ∀ n ∈ g.nodes, ¬ g.deg n < d) : removeNodesByDegree g d = g := by
  have hpp := prunePass_id d g.nodes g h
  rw [removeNodesByDegree, dif_neg (by rw [hpp]; omega), hpp]

theorem universal_deg {g : Graph} (hwf : g.WF) {r : Nat} (hr : r ∈ g.nodes)
    (hu : universalIn g r) : g.deg r = g.size - 1 := by
  obtain ⟨hnd, hnbrnd, hclosed, hirr, hsym⟩ := hwf
  have h1 : g.nbrs r ⊆ g.nodes.filter (fun x => x ≠ r) := by
    intro m hm
    rw [List.mem_filter]
    refine ⟨hclosed r hr m hm, ?_⟩
    simp only [ne_eq, decide_eq_true_eq]
    intro hc
    exact hirr r hr (hc ▸ hm)
  have h2 : g.nodes.filter (fun x => x ≠ r) ⊆ g.nbrs r := by
    intro m hm
    obtain ⟨hm2, hmne⟩ := List.mem_filter.mp hm
    exact hu m hm2 (by simpa using hmne)
  have hperm := ((hnbrnd r hr).subperm h1).antisymm ((hnd.filter _).subperm h2)
  have hlen := hperm.length_eq
  have hf := filter_ne_length hnd hr
  show (g.nbrs r).length = g.nodes.length - 1
  omega

theorem deg_universal {g : Graph} (hwf : g.WF) {r : Nat} (hr : r ∈ g.nodes)
    (hd : g.deg r = g.size - 1) : universalIn g r := by
  have hwf2 := hwf
  obtain ⟨hnd, hnbrnd, hclosed, hirr, hsym⟩ := hwf2
  have h1 : g.nbrs r ⊆ g.nodes.filter (fun x => x ≠ r) := by
    intro m hm
    rw [List.mem_filter]
    refine ⟨hclosed r hr m hm, ?_⟩
    simp only [ne_eq, decide_eq_true_eq]
    intro hc
    exact hirr r hr (hc ▸ hm)
  have hf := filter_ne_length hnd hr
  have hszpos : 1 ≤ g.nodes.length := by
    cases hg : g.nodes with
    | nil => rw [hg] at hr; simp at hr
    | cons a t => simp
  have hdl : (g.nbrs r).length = g.nodes.length - 1 := hd
  have hperm := ((hnbrnd r hr).subperm h1).perm_of_length_le (by omega)
  intro m hm hmr
  apply hperm.mem_iff.mpr
  rw [List.mem_filter]
  exact ⟨hm, by simp [hmr]⟩

/-- The search invariant carried through every recursive call: whenever
reduce_to_clique returns, the final graph is empty or a clique of size at
least min_size, and it is well-formed.  The required_nodes invariant
`ReqInv` guarantees that the unknown-node list is never empty at the loop,
and well-formedness makes the degree test mean genuine adjacency. -/
theorem reduce_good :
    ∀ (fuel : Nat) (g : Graph) (N : Nat) (req : List Nat)
      (out : Graph × List Nat),
      g.WF → ReqInv g req → reduce_to_clique fuel g N req = some out →
      ((out.1.nodes = [] ∨ (N ≤ out.1.size ∧ isClique out.1 = true)) ∧
        out.1.WF) := by
  intro fuel
  induction fuel with
  | zero =>
    intro g N req out _ _ h
    simp [reduce_to_clique] at h
  | succ fuel ih =>
    intro g N req out hwf hreq hred
    rw [reduce_to_clique] at hred
    have hp := removeNodesByDegree_props g.nodes.length g (N - 1) (le_refl _)
    have hwf1 : (removeNodesByDegree g (N - 1)).WF := hp.2.2.1 hwf
    have hreq1 : ReqInv (removeNodesByDegree g (N - 1)) req := hp.2.2.2 req hreq
    by_cases hsz : (removeNodesByDegree g (N - 1)).size < N
    · rw [if_pos hsz] at hred
      obtain rfl := Option.some.inj hred
      exact ⟨Or.inl rfl, clear_WF _⟩
    · rw [if_neg hsz] at hred
      by_cases hcl : isClique (removeNodesByDegree g (N - 1)) = true
      · rw [if_pos hcl] at hred
        obtain rfl := Option.some.inj hred
        exact ⟨Or.inr ⟨le_of_not_lt hsz, hcl⟩, hwf1⟩
      · rw [if_neg hcl] at hred
        have hreqA : ReqInv (removeNodesByDegree g (N - 1))
            (requiredAfter (removeNodesByDegree g (N - 1)) req) := by
          intro r hr hrg
          rw [requiredAfter, List.mem_append] at hr
          rcases hr with hr | hr
          · exact hreq1 r hr hrg
          · obtain ⟨hrn, hcond⟩ := List.mem_filter.mp hr
            simp only [Bool.and_eq_true, decide_eq_true_eq, beq_iff_eq]
              at hcond
            exact deg_universal hwf1 hrn hcond.2
        have hnon : unknownNodes (removeNodesByDegree g (N - 1))
            (requiredAfter (removeNodesByDegree g (N - 1)) req) ≠ [] := by
          rw [isClique_iff] at hcl
          push_neg at hcl
          obtain ⟨x, hx, hxd⟩ := hcl
          have hxreq : x ∉ requiredAfter (removeNodesByDegree g (N - 1)) req := by
            intro hc
            exact hxd (universal_deg hwf1 hx (hreqA x hc hx))
          intro hc
          have hxu : x ∈ unknownNodes (removeNodesByDegree g (N - 1))
              (requiredAfter (removeNodesByDegree g (N - 1)) req) := by
            rw [unknownNodes, List.mem_filter]
            exact ⟨hx, by simp [hxreq]⟩
          rw [hc] at hxu
          simp at hxu
        obtain ⟨u, us, huu⟩ := List.exists_cons_of_ne_nil hnon
        rw [huu] at hred
        rw [tryNodes] at hred
        cases hsub : reduce_to_clique fuel
            ((removeNodesByDegree g (N - 1)).removeNode u true) N
            (requiredAfter (removeNodesByDegree g (N - 1)) req) with
        | none =>
          rw [hsub] at hred
          simp at hred
        | some p =>
          obtain ⟨p1, p2⟩ := p
          rw [hsub] at hred
          have hgood := ih ((removeNodesByDegree g (N - 1)).removeNode u true)
            N (requiredAfter (removeNodesByDegree g (N - 1)) req) (p1, p2)
            (removeNode_WF hwf1 u true) (reqInv_removeNode hreqA) hsub
          have hclp : isClique p1 = true := by
            rcases hgood.1 with hnil2 | hcl2
            · exact isClique_of_nil hnil2
            · exact hcl2.2
          simp only [hclp, if_true] at hred
          obtain rfl := Option.some.inj hred
          exact hgood

/-- C1: reduce_to_clique, started with the default fresh required set,
satisfies the claimed contract: too-small inputs come back empty,
sufficient cliques come back unchanged, and every returned graph is either
empty or a genuine clique (all degrees equal size - 1 and all distinct
nodes mutually adjacent) of size at least min_size. -/
theorem C1_reduce_to_clique (g : Graph) (N fuel : Nat) (hwf : g.WF) :
    reduceCliqueSpec g N fuel := by
  refine ⟨?_, ?_, ?_⟩
  · intro hsz out hred
    rw [reduce_to_clique] at hred
    have hle := (removeNodesByDegree_props g.nodes.length g (N - 1)
      (le_refl _)).2.1
    have hsz0 : g.nodes.length < N := hsz
    have hsz1 : (removeNodesByDegree g (N - 1)).size < N := by
      show (removeNodesByDegree g (N - 1)).nodes.length < N
      omega
    rw [if_pos hsz1] at hred
    obtain rfl := Option.some.inj hred
    rfl
  · intro hcl hsz
    have hdeg : ∀ n ∈ g.nodes, ¬ g.deg n < N - 1 := by
      intro n hn
      have hd := (isClique_iff g).mp hcl n hn
      have hszle : N ≤ g.nodes.length := hsz
      have hds : g.deg n = g.nodes.length - 1 := hd
      omega
    have hid := removeNodesByDegree_id g (N - 1) hdeg
    have hns : ¬ g.size < N := by
      intro hc
      exact absurd hsz (by omega)
    rw [reduce_to_clique, hid, if_neg hns, if_pos hcl]
  · cases hr : reduce_to_clique fuel g N [] with
    | none => exact trivial
    | some out =>
      have hgood := reduce_good fuel g N [] out hwf
        (fun r hr2 => absurd hr2 (List.not_mem_nil r)) hr
      show out.1.nodes = [] ∨ (N ≤ out.1.size ∧
        (∀ x ∈ out.1.nodes, out.1.deg x = out.1.size - 1) ∧
        (∀ x ∈ out.1.nodes, ∀ y ∈ out.1.nodes, x ≠ y → y ∈ out.1.nbrs x))
      rcases hgood.1 with hnil | hcl2
      · exact Or.inl hnil
      · refine Or.inr ⟨hcl2.1, (isClique_iff out.1).mp hcl2.2, ?_⟩
        intro x hx y hy hxy
        have hu := deg_universal hgood.2 hx ((isClique_iff out.1).mp hcl2.2 x hx)
        exact hu y hy (Ne.symm hxy)

/-- Witness for C1 on a concrete triangle graph with min_size = 2. -/
theorem C1_reduce_to_clique_witness :
    (Graph.mk [0, 1, 2] (fun v =>
      if v = 0 then [1, 2] else if v = 1 then [0, 2]
      else if v = 2 then [0, 1] else [])).WF ∧
    reduceCliqueSpec (Graph.mk [0, 1, 2] (fun v =>
      if v = 0 then [1, 2] else if v = 1 then [0, 2]
      else if v = 2 then [0, 1] else [])) 2 4 :=
  ⟨by decide, C1_reduce_to_clique _ 2 4 (by decide)⟩
